import Mathlib

/-
  Verification of the two batch scripts of the kubestronaut-preparation
  demo platform:
  * `fix-namespaces.py` — the namespace Normalizer, and
  * `script.py` — the markdown-to-JSON Extractor.

  Strings are modelled as `List Char`.  Python's `re` character classes
  `\s`, `\w`, `\d` are modelled by their ASCII meaning (the inputs the
  scripts process are ASCII kubectl commands and markdown).
-/

set_option maxHeartbeats 1000000

namespace KubePrep

/-- Strings are lists of characters. -/
abbrev Str := List Char

/-- Python's `\s` class (ASCII part): space, tab, newline, vertical tab,
form feed, carriage return. -/
def pyIsSpace (c : Char) : Bool :=
  c = ' ' || c = '\t' || c = '\n' || c = Char.ofNat 11 || c = Char.ofNat 12 || c = '\r'

/-- Python's `\w` class (ASCII part): alphanumeric or underscore. -/
def isWordChar (c : Char) : Bool :=
  c.isAlphanum || c = '_'

/-- The fixed 8-element namespace list of fix-namespaces.py, line 11. -/
def NAMESPACES : List Str :=
  ["saturn".toList, "venus".toList, "pluto".toList, "mars".toList,
   "mercury".toList, "jupiter".toList, "uranus".toList, "neptune".toList]

/-- fix-namespaces.py `get_namespace`: namespace keyed by question number mod 8. -/
def get_namespace (questionNum : Nat) : Str :=
  NAMESPACES.getD (questionNum % 8) []

/-- Value of a list of decimal digit characters. -/
def digitsVal (ds : Str) : Nat :=
  ds.foldl (fun v c => v * 10 + (c.toNat - 48)) 0

/-- fix-namespaces.py lines 24-30: `re.search(r'(\d+)', filename)` followed by
`int(...)`: the first (leftmost, maximal) run of decimal digits in the
filename, as a number; `none` when the filename has no digit. -/
def extractNum (filename : Str) : Option Nat :=
  match filename.dropWhile (fun c => !c.isDigit) with
  | [] => none
  | c :: rest => some (digitsVal (c :: rest.takeWhile Char.isDigit))

/-- The `infrastructure` object of a question record; `namespaces` is optional
(`'namespaces' in question['infrastructure']`), other keys are untouched. -/
structure Infrastructure where
  namespaces : Option (List Str)
  extra : List (Str × Str)
  deriving DecidableEq

/-- The `solution` object; `steps` is optional. -/
structure Solution where
  steps : Option (List Str)
  extra : List (Str × Str)
  deriving DecidableEq

/-- One entry of `validations`; `command` is optional, other keys untouched. -/
structure Validation where
  command : Option Str
  extra : List (Str × Str)
  deriving DecidableEq

/-- A question record as far as fix-namespaces.py reads and writes it;
every field the script may not find is an `Option`. -/
structure Question where
  infrastructure : Option Infrastructure
  description : Option Str
  solution : Option Solution
  validations : Option (List Validation)
  extra : List (Str × Str)
  deriving DecidableEq

/-- Strip a literal pattern from the front of a string; `some rest` on success. -/
def stripPre : Str → Str → Option Str
  | [], s => some s
  | _ :: _, [] => none
  | p :: ps, c :: cs => if c = p then stripPre ps cs else none

/-- Word boundary `\b` at the front of `s`, for a position whose left
neighbour is a word character: holds when `s` is empty or starts with a
non-word character. -/
def bdry (s : Str) : Bool :=
  match s with
  | [] => true
  | c :: _ => !isWordChar c

/-- Match a literal word followed by `\b`; returns the rest (boundary char
not consumed). -/
def matchWord : Str → Str → Option Str
  | [], s => if bdry s then some s else none
  | _ :: _, [] => none
  | w :: ws, c :: cs => if c = w then matchWord ws cs else none

/-- Match `pre` + `\s+` + `old` + `\b` at the head of a string, as in the
regexes `-n\s+<old>\b` and `--namespace\s+<old>\b` of fix-namespaces.py
lines 56-57 and 70-71.  Returns the rest after `old` on success. -/
def matchFlag (pre old : Str) (s : Str) : Option Str :=
  match stripPre pre s with
  | none => none
  | some t =>
    match t with
    | [] => none
    | c :: t2 => if pyIsSpace c then matchWord old (t2.dropWhile pyIsSpace) else none

/-- The literal `-n`. -/
def dashN : Str := ['-', 'n']

/-- The literal `--namespace`. -/
def dashNS : Str := ['-', '-', 'n', 'a', 'm', 'e', 's', 'p', 'a', 'c', 'e']

theorem dashNS_spelling : dashNS = "--namespace".toList := by decide

/-- Left-to-right, non-overlapping `re.sub` for the pattern
`pre\s+old\b` with replacement `pre ++ " " ++ new` (Python's
`f'-n {assigned}'` / `f'--namespace {assigned}'`).
The first argument counts characters still to be skipped after a match
(structural-recursion device; a match consuming `k` characters emits the
replacement and skips the remaining `k - 1` characters of the tail). -/
def subAux (pre old new : Str) : Nat → Str → Str
  | _, [] => []
  | Nat.succ n, _ :: s => subAux pre old new n s
  | 0, c :: s =>
    match matchFlag pre old (c :: s) with
    | some r => (pre ++ ' ' :: new) ++ subAux pre old new (s.length - r.length) s
    | none => c :: subAux pre old new 0 s

/-- `re.sub(pre + r'\s+' + old + r'\b', pre + ' ' + new, s)`. -/
def subFlag (pre old new : Str) (s : Str) : Str :=
  subAux pre old new 0 s

/-- The marker `||name||` (fix-namespaces.py line 46). -/
def mpat (name : Str) : Str :=
  '|' :: '|' :: (name ++ ['|', '|'])

/-- `re.sub` for the literal pattern `||old||` with replacement `||new||`,
with the same skip-counter device as `subAux`. -/
def subMarkAux (old new : Str) : Nat → Str → Str
  | _, [] => []
  | Nat.succ n, _ :: s => subMarkAux old new n s
  | 0, c :: s =>
    match stripPre (mpat old) (c :: s) with
    | some r => mpat new ++ subMarkAux old new (s.length - r.length) s
    | none => c :: subMarkAux old new 0 s

/-- `re.sub(r'\|\|' + old + r'\|\|', f'||{new}||', s)`. -/
def subMarker (old new : Str) (s : Str) : Str :=
  subMarkAux old new 0 s

/-- fix-namespaces.py lines 44-46: rewrite the markers of every namespace
other than the assigned one in a description. -/
def fix_description (assigned : Str) (d : Str) : Str :=
  NAMESPACES.foldl (fun acc old => if old = assigned then acc else subMarker old assigned acc) d

/-- fix-namespaces.py lines 54-57: rewrite `-n <old>` then `--namespace <old>`
for every namespace other than the assigned one, in one solution step. -/
def fixStepStr (assigned : Str) (s : Str) : Str :=
  NAMESPACES.foldl
    (fun acc old =>
      if old = assigned then acc
      else subFlag dashNS old assigned (subFlag dashN old assigned acc)) s

/-- fix-namespaces.py lines 68-71: the identical rewriting applied to one
validation command. -/
def fixValidationCommand (assigned : Str) (s : Str) : Str :=
  NAMESPACES.foldl
    (fun acc old =>
      if old = assigned then acc
      else subFlag dashNS old assigned (subFlag dashN old assigned acc)) s

/-- fix-namespaces.py lines 36-38: the namespaces guard — replace the array
by `[assigned]` only when it has exactly one element that is planetary or
empty. -/
def fixNamespacesField (assigned : Str) (ns : List Str) : List Str :=
  match ns with
  | [x] => if x ∈ NAMESPACES ++ [([] : Str)] then [assigned] else [x]
  | _ => ns

/-- fix-namespaces.py lines 31-74: the content transformation applied to a
parsed question record once the question number is known. -/
def fixCore (questionNum : Nat) (q : Question) : Question :=
  let assigned := get_namespace questionNum
  { q with
    infrastructure := q.infrastructure.map (fun infra =>
      { infra with namespaces := infra.namespaces.map (fixNamespacesField assigned) }),
    description := q.description.map (fix_description assigned),
    solution := q.solution.map (fun sol =>
      { sol with steps := sol.steps.map (List.map (fixStepStr assigned)) }),
    validations := q.validations.map (List.map (fun v =>
      { v with command := v.command.map (fixValidationCommand assigned) })) }

/-- fix-namespaces.py `fix_question_file`, content level: `none` when the
filename has no digit (the function logs and returns `False`), otherwise the
transformed record that is written back. -/
def fix_question_file (filename : Str) (q : Question) : Option Question :=
  (extractNum filename).map (fun n => fixCore n q)

/-- The namespaces array of a record, when present. -/
def nsOf (q : Question) : Option (List Str) :=
  q.infrastructure.bind Infrastructure.namespaces

/-! ### Basic facts about the matching primitives -/

theorem stripPre_some {p s t : Str} (h : stripPre p s = some t) : s = p ++ t := by
  induction p generalizing s with
  | nil => simpa [stripPre] using h
  | cons x ps ih =>
    cases s with
    | nil => simp [stripPre] at h
    | cons c cs =>
      by_cases hc : c = x
      · subst hc
        simp only [stripPre, if_pos rfl] at h
        simpa using ih h
      · simp [stripPre, hc] at h

theorem stripPre_append (p t : Str) : stripPre p (p ++ t) = some t := by
  induction p with
  | nil => simp [stripPre]
  | cons x ps ih => simp [stripPre, ih]

theorem matchWord_some {w u r : Str} (h : matchWord w u = some r) :
    u = w ++ r ∧ bdry r = true := by
  induction w generalizing u with
  | nil =>
    simp only [matchWord] at h
    by_cases hb : bdry u
    · simp [hb] at h; simp [← h, hb]
    · simp [hb] at h
  | cons x ws ih =>
    cases u with
    | nil => simp [matchWord] at h
    | cons c cs =>
      by_cases hc : c = x
      · subst hc
        simp only [matchWord, if_pos rfl] at h
        obtain ⟨h1, h2⟩ := ih h
        exact ⟨by simp [h1], h2⟩
      · simp [matchWord, hc] at h

theorem matchWord_append {w r : Str} (hb : bdry r = true) :
    matchWord w (w ++ r) = some r := by
  induction w with
  | nil => simp [matchWord, hb]
  | cons x ws ih => simp [matchWord, ih]

theorem matchFlag_some_decomp {pre old s r : Str} (h : matchFlag pre old s = some r) :
    ∃ sp, s = pre ++ sp ++ old ++ r ∧ sp ≠ [] ∧ (∀ c ∈ sp, pyIsSpace c = true) ∧
      bdry r = true := by
  unfold matchFlag at h
  cases hst : stripPre pre s with
  | none => rw [hst] at h; exact absurd h (by simp)
  | some t =>
    rw [hst] at h
    cases t with
    | nil => simp at h
    | cons c t2 =>
      by_cases hc : pyIsSpace c
      · simp only [if_pos hc] at h
        obtain ⟨h1, h2⟩ := matchWord_some h
        refine ⟨c :: t2.takeWhile pyIsSpace, ?_, by simp, ?_, h2⟩
        · have hs := stripPre_some hst
          have ht2 : List.takeWhile pyIsSpace t2 ++ List.dropWhile pyIsSpace t2 = t2 :=
            List.takeWhile_append_dropWhile pyIsSpace t2
          calc s = pre ++ c :: t2 := hs
            _ = pre ++ c :: (List.takeWhile pyIsSpace t2 ++ List.dropWhile pyIsSpace t2) := by
                  rw [ht2]
            _ = pre ++ c :: (List.takeWhile pyIsSpace t2 ++ (old ++ r)) := by rw [h1]
            _ = pre ++ (c :: List.takeWhile pyIsSpace t2) ++ old ++ r := by simp
        · intro d hd
          rcases hd with _ | hd
          · exact hc
          · exact List.mem_takeWhile_imp (by assumption)
      · simp [hc] at h

theorem matchFlag_cons_some_tail {pre old : Str} {c : Char} {s r : Str}
    (h : matchFlag pre old (c :: s) = some r) : ∃ w, s = w ++ r := by
  obtain ⟨sp, hdec, hsp, -, -⟩ := matchFlag_some_decomp h
  have hdec' : c :: s = (pre ++ sp ++ old) ++ r := by
    simpa [List.append_assoc] using hdec
  rcases hX : pre ++ sp ++ old with _ | ⟨x, X⟩
  · exfalso
    exact hsp (List.append_eq_nil.mp (List.append_eq_nil.mp hX).1).2
  · rw [hX] at hdec'
    rw [List.cons_append] at hdec'
    exact ⟨X, (List.cons.inj hdec').2⟩

theorem subAux_skip (pre old new : Str) :
    ∀ (s : Str) (n : Nat), subAux pre old new n s = subAux pre old new 0 (s.drop n) := by
  intro s
  induction s with
  | nil => intro n; cases n <;> simp [subAux]
  | cons c s ih =>
    intro n
    cases n with
    | zero => rfl
    | succ m => simpa [subAux] using ih m

theorem subFlag_cons_match {pre old new : Str} {c : Char} {s r : Str}
    (h : matchFlag pre old (c :: s) = some r) :
    subFlag pre old new (c :: s) = (pre ++ ' ' :: new) ++ subFlag pre old new r := by
  obtain ⟨w, hw⟩ := matchFlag_cons_some_tail h
  have hdrop : s.drop (s.length - r.length) = r := by
    have hlen : s.length - r.length = w.length := by
      rw [hw]; simp
    rw [hlen, hw, List.drop_left]
  have step : subFlag pre old new (c :: s)
      = (pre ++ ' ' :: new) ++ subAux pre old new (s.length - r.length) s := by
    unfold subFlag
    rw [subAux, h]
  rw [step, subAux_skip pre old new s (s.length - r.length), hdrop]
  rfl

theorem subFlag_cons_nomatch {pre old new : Str} {c : Char} {s : Str}
    (h : matchFlag pre old (c :: s) = none) :
    subFlag pre old new (c :: s) = c :: subFlag pre old new s := by
  unfold subFlag
  rw [subAux]
  rw [h]

theorem subFlag_nil (pre old new : Str) : subFlag pre old new [] = [] := rfl

theorem subMarkAux_skip (old new : Str) :
    ∀ (s : Str) (n : Nat), subMarkAux old new n s = subMarkAux old new 0 (s.drop n) := by
  intro s
  induction s with
  | nil => intro n; cases n <;> simp [subMarkAux]
  | cons c s ih =>
    intro n
    cases n with
    | zero => rfl
    | succ m => simpa [subMarkAux] using ih m

theorem subMarker_cons_match {old new : Str} {c : Char} {s r : Str}
    (h : stripPre (mpat old) (c :: s) = some r) :
    subMarker old new (c :: s) = mpat new ++ subMarker old new r := by
  have hcs := stripPre_some h
  have hw : ∃ w, s = w ++ r := by
    rcases hX : mpat old with _ | ⟨x, X⟩
    · simp [mpat] at hX
    · refine ⟨X, ?_⟩
      rw [hX] at hcs
      simpa using (List.cons.inj (by simpa using hcs)).2
  obtain ⟨w, hwr⟩ := hw
  have hdrop : s.drop (s.length - r.length) = r := by
    have hlen : s.length - r.length = w.length := by
      rw [hwr]; simp
    rw [hlen, hwr, List.drop_left]
  have step : subMarker old new (c :: s)
      = mpat new ++ subMarkAux old new (s.length - r.length) s := by
    unfold subMarker
    rw [subMarkAux, h]
  rw [step, subMarkAux_skip old new s (s.length - r.length), hdrop]
  rfl

theorem subMarker_cons_nomatch {old new : Str} {c : Char} {s : Str}
    (h : stripPre (mpat old) (c :: s) = none) :
    subMarker old new (c :: s) = c :: subMarker old new s := by
  unfold subMarker
  rw [subMarkAux]
  rw [h]

/-! ### Facts about the namespace constants -/

/-- Boolean prefix test on character lists. -/
def isPreB : Str → Str → Bool
  | [], _ => true
  | _ :: _, [] => false
  | a :: as, b :: bs => (a == b) && isPreB as bs

theorem isPreB_iff : ∀ x y : Str, isPreB x y = true ↔ x <+: y := by
  intro x
  induction x with
  | nil =>
    intro y
    simp only [isPreB, true_iff]
    exact ⟨y, rfl⟩
  | cons a as ih =>
    intro y
    cases y with
    | nil =>
      simp only [isPreB]
      refine ⟨fun h => absurd h (by decide), ?_⟩
      rintro ⟨t, ht⟩
      simp at ht
    | cons b bs =>
      simp only [isPreB, List.cons_prefix_cons, Bool.and_eq_true, beq_iff_eq]
      rw [ih bs]

theorem ns_noPre_all :
    NAMESPACES.all (fun x => NAMESPACES.all fun y => (decide (x = y)) || !(isPreB x y))
      = true := by decide

theorem ns_noPre {x y : Str} (hx : x ∈ NAMESPACES) (hy : y ∈ NAMESPACES)
    (hxy : x ≠ y) : ¬ x <+: y := by
  intro hp
  have h1 := List.all_eq_true.mp ns_noPre_all x hx
  have h2 := List.all_eq_true.mp h1 y hy
  rw [(isPreB_iff x y).mpr hp] at h2
  simp [hxy] at h2

theorem ns_chars_all :
    NAMESPACES.all
      (fun x => (!x.isEmpty) && x.all fun c => isWordChar c && !pyIsSpace c && !(c == '-'))
      = true := by decide

theorem ns_ne_nil {x : Str} (hx : x ∈ NAMESPACES) : x ≠ [] := by
  have h1 := List.all_eq_true.mp ns_chars_all x hx
  rcases x with _ | ⟨c, cs⟩
  · simp [List.isEmpty] at h1
  · simp

theorem ns_char_facts {x : Str} {c : Char} (hx : x ∈ NAMESPACES) (hc : c ∈ x) :
    isWordChar c = true ∧ pyIsSpace c = false ∧ c ≠ '-' := by
  have h1 := List.all_eq_true.mp ns_chars_all x hx
  have h2 : (x.all fun c => isWordChar c && !pyIsSpace c && !(c == '-')) = true := by
    simp only [Bool.and_eq_true] at h1
    exact h1.2
  have h3 := List.all_eq_true.mp h2 c hc
  simp only [Bool.and_eq_true, Bool.not_eq_true'] at h3
  refine ⟨h3.1.1, h3.1.2, ?_⟩
  have := h3.2
  simpa using this

/-! ### A state-machine presentation of the flag matcher

The matcher for `pre\s+old\b` is re-expressed as a character-at-a-time
machine; this is the induction vehicle for the substitution lemmas. -/

inductive MSt where
  | preSt : Str → MSt
  | spSt : MSt
  | wordSt : Str → MSt
  deriving DecidableEq

inductive StepR where
  | rej : StepR
  | acc : StepR
  | next : MSt → StepR
  deriving DecidableEq

/-- One character of the matcher for `pre\s+old\b`; the word `old` is the
machine's parameter, remaining pattern progress is the state. -/
def mstep (old : Str) : MSt → Char → StepR
  | .preSt [], c => if pyIsSpace c then .next .spSt else .rej
  | .preSt (x :: q), c => if c = x then .next (.preSt q) else .rej
  | .spSt, c =>
    if pyIsSpace c then .next .spSt
    else
      match old with
      | [] => .rej
      | x :: w => if c = x then .next (.wordSt w) else .rej
  | .wordSt [], c => if isWordChar c then .rej else .acc
  | .wordSt (x :: w), c => if c = x then .next (.wordSt w) else .rej

/-- Acceptance at end of input: the word is complete (boundary at EOS). -/
def matEnd : MSt → Bool
  | .wordSt [] => true
  | _ => false

/-- Run the matcher over a string; `true` means a match starts at the head. -/
def runM (old : Str) : MSt → Str → Bool
  | st, [] => matEnd st
  | st, c :: s =>
    match mstep old st c with
    | .rej => false
    | .acc => true
    | .next st2 => runM old st2 s

/-- States reachable while matching `pre\s+old\b` from the start. -/
def ReachSt (pre old : Str) : MSt → Prop
  | .preSt q => q <:+ pre
  | .spSt => True
  | .wordSt w => w <:+ old

theorem reach_step {pre old : Str} {st st2 : MSt} {c : Char}
    (hr : ReachSt pre old st) (hs : mstep old st c = .next st2) :
    ReachSt pre old st2 := by
  cases st with
  | preSt q =>
    cases q with
    | nil =>
      by_cases hc : pyIsSpace c
      · simp [mstep, hc] at hs
        rw [← hs]
        trivial
      · simp [mstep, hc] at hs
    | cons x q' =>
      by_cases hc : c = x
      · simp [mstep, hc] at hs
        rw [← hs]
        exact List.IsSuffix.trans (List.suffix_cons x q') hr
      · simp [mstep, hc] at hs
  | spSt =>
    by_cases hc : pyIsSpace c
    · simp [mstep, hc] at hs
      rw [← hs]
      trivial
    · cases old with
      | nil => simp [mstep, hc] at hs
      | cons x w =>
        by_cases hcx : c = x
        · subst hcx
          simp [mstep, hc] at hs
          rw [← hs]
          exact List.suffix_cons c w
        · simp [mstep, hc, hcx] at hs
  | wordSt w =>
    cases w with
    | nil =>
      by_cases hc : isWordChar c <;> simp [mstep, hc] at hs
    | cons x w' =>
      by_cases hc : c = x
      · simp [mstep, hc] at hs
        rw [← hs]
        exact List.IsSuffix.trans (List.suffix_cons x w') hr
      · simp [mstep, hc] at hs

/-! Stepping equations for `runM`. -/

theorem runM_nil (old : Str) (st : MSt) : runM old st [] = matEnd st := rfl

theorem runM_pre_hit (old : Str) {q : Str} {x : Char} (s : Str) :
    runM old (.preSt (x :: q)) (x :: s) = runM old (.preSt q) s := by
  simp [runM, mstep]

theorem runM_pre_miss (old : Str) {q : Str} {x c : Char} (h : c ≠ x) (s : Str) :
    runM old (.preSt (x :: q)) (c :: s) = false := by
  simp [runM, mstep, h]

theorem runM_pre_nil_space (old : Str) {c : Char} (h : pyIsSpace c = true) (s : Str) :
    runM old (.preSt []) (c :: s) = runM old .spSt s := by
  simp [runM, mstep, h]

theorem runM_pre_nil_nospace (old : Str) {c : Char} (h : pyIsSpace c = false) (s : Str) :
    runM old (.preSt []) (c :: s) = false := by
  simp [runM, mstep, h]

theorem runM_word_nil_cons (old : Str) {c : Char} (h : isWordChar c = false) (s : Str) :
    runM old (.wordSt []) (c :: s) = true := by
  simp [runM, mstep, h]

theorem runM_word_cons_miss (old : Str) {w : Str} {x c : Char} (h : c ≠ x) (s : Str) :
    runM old (.wordSt (x :: w)) (c :: s) = false := by
  simp [runM, mstep, h]

theorem runM_word_cons_hit (old : Str) {w : Str} {x : Char} (s : Str) :
    runM old (.wordSt (x :: w)) (x :: s) = runM old (.wordSt w) s := by
  simp [runM, mstep]

theorem runM_sp_space (old : Str) {c : Char} (h : pyIsSpace c = true) (s : Str) :
    runM old .spSt (c :: s) = runM old .spSt s := by
  simp [runM, mstep, h]

theorem runM_sp_word {old : Str} {x : Char} {w : Str} (hold : old = x :: w) {c : Char}
    (h : pyIsSpace c = false) (s : Str) :
    runM old .spSt (c :: s) = if c = x then runM old (.wordSt w) s else false := by
  by_cases hcx : c = x
  · subst hcx
    simp only [runM, hold]
    simp [mstep, h]
  · simp only [runM, hold]
    simp [mstep, h, hcx]

/-! ### Equivalence of the two matcher presentations -/

theorem runM_word_eq (old : Str) : ∀ (w u : Str),
    runM old (.wordSt w) u = (matchWord w u).isSome := by
  intro w
  induction w with
  | nil =>
    intro u
    cases u with
    | nil => simp [runM, matEnd, matchWord, bdry]
    | cons c u' =>
      by_cases hc : isWordChar c
      · simp [runM, mstep, hc, matchWord, bdry]
      · simp [runM, mstep, hc, matchWord, bdry]
  | cons x ws ih =>
    intro u
    cases u with
    | nil => simp [runM, matEnd, matchWord]
    | cons c u' =>
      by_cases hc : c = x
      · subst hc
        rw [runM_word_cons_hit, ih u']
        simp [matchWord]
      · rw [runM_word_cons_miss old hc]
        simp [matchWord, hc]

theorem runM_sp_eq {old : Str} (hne : old ≠ []) : ∀ (t : Str),
    runM old .spSt t = (matchWord old (t.dropWhile pyIsSpace)).isSome := by
  intro t
  induction t with
  | nil =>
    cases old with
    | nil => exact absurd rfl hne
    | cons x w => simp [runM, matEnd, matchWord]
  | cons c t' ih =>
    by_cases hc : pyIsSpace c
    · rw [runM_sp_space old hc, ih]
      simp [List.dropWhile, hc]
    · cases old with
      | nil => exact absurd rfl hne
      | cons x w =>
        rw [runM_sp_word rfl (by simpa using hc)]
        have hdw : (c :: t').dropWhile pyIsSpace = c :: t' := by
          simp [List.dropWhile, hc]
        rw [hdw]
        by_cases hcx : c = x
        · subst hcx
          simp [matchWord, runM_word_eq]
        · simp [matchWord, hcx]

theorem runM_pre_strip (old : Str) : ∀ (q s : Str),
    runM old (.preSt q) s =
      match stripPre q s with
      | none => false
      | some t => runM old (.preSt []) t := by
  intro q
  induction q with
  | nil =>
    intro s
    simp [stripPre]
  | cons x ps ih =>
    intro s
    cases s with
    | nil => simp [runM, matEnd, stripPre]
    | cons c cs =>
      by_cases hc : c = x
      · subst hc
        rw [runM_pre_hit, ih cs]
        simp [stripPre]
      · rw [runM_pre_miss old hc]
        simp [stripPre, hc]

theorem matchFlag_eq_runM {pre old : Str} (hne : old ≠ []) (s : Str) :
    (matchFlag pre old s).isSome = runM old (.preSt pre) s := by
  rw [runM_pre_strip]
  unfold matchFlag
  cases hst : stripPre pre s with
  | none => simp
  | some t =>
    cases t with
    | nil => simp [runM, matEnd]
    | cons c t2 =>
      dsimp only
      by_cases hc : pyIsSpace c
      · rw [runM_pre_nil_space old hc]
        simp [hc, runM_sp_eq hne]
      · rw [runM_pre_nil_nospace old (by simpa using hc)]
        simp [hc]

theorem matchFlag_none_iff_runM {pre old : Str} (hne : old ≠ []) (s : Str) :
    matchFlag pre old s = none ↔ runM old (.preSt pre) s = false := by
  rw [← matchFlag_eq_runM hne]
  cases matchFlag pre old s <;> simp

/-! ### Rejection lemmas: the word part can never traverse a distinct namespace -/

theorem runM_word_noPre (old : Str) : ∀ (b w X : Str), ¬ w <+: b → ¬ b <+: w →
    (∀ c ∈ b, isWordChar c = true) → runM old (.wordSt w) (b ++ X) = false := by
  intro b
  induction b with
  | nil =>
    intro w X h1 h2 _
    exact absurd ⟨w, rfl⟩ h2
  | cons d b' ih =>
    intro w X h1 h2 h3
    cases w with
    | nil => exact absurd ⟨d :: b', rfl⟩ h1
    | cons x w' =>
      by_cases hdx : d = x
      · subst hdx
        rw [List.cons_append, runM_word_cons_hit]
        refine ih w' X ?_ ?_ ?_
        · intro hp
          exact h1 (List.cons_prefix_cons.mpr ⟨rfl, hp⟩)
        · intro hp
          exact h2 (List.cons_prefix_cons.mpr ⟨rfl, hp⟩)
        · intro c hc
          exact h3 c (by simp [hc])
      · rw [List.cons_append, runM_word_cons_miss old hdx]

theorem runM_sp_noPre {old : Str} (a X : Str)
    (h1 : ¬ old <+: a) (h2 : ¬ a <+: old)
    (haw : ∀ c ∈ a, isWordChar c = true ∧ pyIsSpace c = false) :
    runM old .spSt (a ++ X) = false := by
  cases a with
  | nil => exact absurd ⟨old, rfl⟩ h2
  | cons d a' =>
    have hd := haw d (by simp)
    cases old with
    | nil => exact absurd ⟨d :: a', rfl⟩ h1
    | cons x w =>
      rw [List.cons_append, runM_sp_word rfl hd.2]
      by_cases hdx : d = x
      · subst hdx
        rw [if_pos rfl]
        refine runM_word_noPre _ a' w X ?_ ?_ ?_
        · intro hp
          exact h1 (List.cons_prefix_cons.mpr ⟨rfl, hp⟩)
        · intro hp
          exact h2 (List.cons_prefix_cons.mpr ⟨rfl, hp⟩)
        · intro c hc
          exact (haw c (by simp [hc])).1
      · rw [if_neg hdx]

/-- The space-then-word tail of the matcher rejects a different namespace. -/
theorem runM_sp_ns {old a : Str} (ho : old ∈ NAMESPACES) (ha : a ∈ NAMESPACES)
    (hoa : old ≠ a) (X : Str) : runM old .spSt (a ++ X) = false :=
  runM_sp_noPre a X (ns_noPre ho ha hoa) (ns_noPre ha ho (Ne.symm hoa))
    (fun c hc => ⟨(ns_char_facts ha hc).1, (ns_char_facts ha hc).2.1⟩)

/-- The space state rejects a dash. -/
theorem runM_sp_dash {old : Str} (ho : old ∈ NAMESPACES) (t : Str) :
    runM old .spSt ('-' :: t) = false := by
  cases old with
  | nil => exact absurd rfl (ns_ne_nil ho)
  | cons x w =>
    rw [runM_sp_word rfl (by decide)]
    have hx : x ≠ '-' := (ns_char_facts ho (by simp)).2.2
    rw [if_neg (fun h => hx h.symm)]

/-! ### The replacement block rejects every pending match attempt -/

theorem suffix_dashN {q : Str} (h : q <:+ dashN) :
    q = ['-', 'n'] ∨ q = ['n'] ∨ q = [] := by
  have h' : q <:+ '-' :: 'n' :: [] := h
  simp only [List.suffix_cons_iff, List.suffix_nil] at h'
  tauto

theorem suffix_dashNS {q : Str} (h : q <:+ dashNS) :
    q = ['-', '-', 'n', 'a', 'm', 'e', 's', 'p', 'a', 'c', 'e'] ∨
    q = ['-', 'n', 'a', 'm', 'e', 's', 'p', 'a', 'c', 'e'] ∨
    q = ['n', 'a', 'm', 'e', 's', 'p', 'a', 'c', 'e'] ∨
    q = ['a', 'm', 'e', 's', 'p', 'a', 'c', 'e'] ∨
    q = ['m', 'e', 's', 'p', 'a', 'c', 'e'] ∨
    q = ['e', 's', 'p', 'a', 'c', 'e'] ∨
    q = ['s', 'p', 'a', 'c', 'e'] ∨
    q = ['p', 'a', 'c', 'e'] ∨
    q = ['a', 'c', 'e'] ∨
    q = ['c', 'e'] ∨
    q = ['e'] ∨
    q = [] := by
  have h' : q <:+ '-' :: '-' :: 'n' :: 'a' :: 'm' :: 'e' :: 's' :: 'p' :: 'a' :: 'c' :: 'e' :: [] := h
  simp only [List.suffix_cons_iff, List.suffix_nil] at h'
  tauto

/-- A matcher for `pre\s+old\b` that is in any reachable state short of a
completed word rejects the inserted replacement text `pre' ++ " " ++ a`,
whatever follows it. -/
theorem runM_block {pre old a pre' : Str}
    (hpre : pre = dashN ∨ pre = dashNS)
    (hpre' : pre' = dashN ∨ pre' = dashNS)
    (ho : old ∈ NAMESPACES) (ha : a ∈ NAMESPACES) (hoa : old ≠ a)
    (X : Str) :
    ∀ st : MSt, ReachSt pre old st → st ≠ .wordSt [] →
      runM old st ((pre' ++ ' ' :: a) ++ X) = false := by
  have hsp : runM old .spSt (a ++ X) = false := runM_sp_ns ho ha hoa X
  intro st hreach hne
  obtain ⟨t, ht⟩ : ∃ t, ((pre' ++ ' ' :: a) ++ X) = '-' :: t := by
    rcases hpre' with rfl | rfl
    · exact ⟨'n' :: ' ' :: (a ++ X), by simp [dashN]⟩
    · exact ⟨'-' :: 'n' :: 'a' :: 'm' :: 'e' :: 's' :: 'p' :: 'a' :: 'c' :: 'e' :: ' ' :: (a ++ X),
        by simp [dashNS]⟩
  cases st with
  | spSt =>
    rw [ht]
    exact runM_sp_dash ho t
  | wordSt w =>
    cases w with
    | nil => exact absurd rfl hne
    | cons x w' =>
      rw [ht]
      have hsuf : (x :: w') <:+ old := hreach
      have hxo : x ∈ old := hsuf.subset (by simp)
      exact runM_word_cons_miss old
        (fun hdx => (ns_char_facts ho hxo).2.2 hdx.symm) t
  | preSt q =>
    rcases hpre' with rfl | rfl
    · have hblock : ((dashN ++ ' ' :: a) ++ X) = '-' :: 'n' :: ' ' :: (a ++ X) := by
        simp [dashN]
      rw [hblock]
      rcases hpre with rfl | rfl
      · have hq : q <:+ dashN := hreach
        rcases suffix_dashN hq with rfl | rfl | rfl
        · rw [runM_pre_hit, runM_pre_hit, runM_pre_nil_space old (by decide)]
          exact hsp
        · exact runM_pre_miss old (by decide) _
        · exact runM_pre_nil_nospace old (by decide) _
      · have hq : q <:+ dashNS := hreach
        rcases suffix_dashNS hq with rfl|rfl|rfl|rfl|rfl|rfl|rfl|rfl|rfl|rfl|rfl|rfl
        · rw [runM_pre_hit]
          exact runM_pre_miss old (by decide) _
        · rw [runM_pre_hit, runM_pre_hit]
          exact runM_pre_miss old (by decide) _
        · exact runM_pre_miss old (by decide) _
        · exact runM_pre_miss old (by decide) _
        · exact runM_pre_miss old (by decide) _
        · exact runM_pre_miss old (by decide) _
        · exact runM_pre_miss old (by decide) _
        · exact runM_pre_miss old (by decide) _
        · exact runM_pre_miss old (by decide) _
        · exact runM_pre_miss old (by decide) _
        · exact runM_pre_miss old (by decide) _
        · exact runM_pre_nil_nospace old (by decide) _
    · have hblock : ((dashNS ++ ' ' :: a) ++ X)
          = '-' :: '-' :: 'n' :: 'a' :: 'm' :: 'e' :: 's' :: 'p' :: 'a' :: 'c' :: 'e' :: ' ' :: (a ++ X) := by
        simp [dashNS]
      rw [hblock]
      rcases hpre with rfl | rfl
      · have hq : q <:+ dashN := hreach
        rcases suffix_dashN hq with rfl | rfl | rfl
        · rw [runM_pre_hit]
          exact runM_pre_miss old (by decide) _
        · exact runM_pre_miss old (by decide) _
        · exact runM_pre_nil_nospace old (by decide) _
      · have hq : q <:+ dashNS := hreach
        rcases suffix_dashNS hq with rfl|rfl|rfl|rfl|rfl|rfl|rfl|rfl|rfl|rfl|rfl|rfl
        · rw [runM_pre_hit, runM_pre_hit, runM_pre_hit, runM_pre_hit, runM_pre_hit,
            runM_pre_hit, runM_pre_hit, runM_pre_hit, runM_pre_hit, runM_pre_hit,
            runM_pre_hit, runM_pre_nil_space old (by decide)]
          exact hsp
        · rw [runM_pre_hit]
          exact runM_pre_miss old (by decide) _
        · exact runM_pre_miss old (by decide) _
        · exact runM_pre_miss old (by decide) _
        · exact runM_pre_miss old (by decide) _
        · exact runM_pre_miss old (by decide) _
        · exact runM_pre_miss old (by decide) _
        · exact runM_pre_miss old (by decide) _
        · exact runM_pre_miss old (by decide) _
        · exact runM_pre_miss old (by decide) _
        · exact runM_pre_miss old (by decide) _
        · exact runM_pre_nil_nospace old (by decide) _

/-! ### Transfer: a failing match attempt still fails after a substitution pass -/

theorem runM_subFlag_false {pre pre' old old' a : Str}
    (hpre : pre = dashN ∨ pre = dashNS)
    (hpre' : pre' = dashN ∨ pre' = dashNS)
    (ho : old ∈ NAMESPACES) (ha : a ∈ NAMESPACES) (hoa : old ≠ a) :
    ∀ (s : Str) (st : MSt), ReachSt pre old st → runM old st s = false →
      runM old st (subFlag pre' old' a s) = false := by
  have main : ∀ (n : Nat) (s : Str), s.length ≤ n → ∀ (st : MSt), ReachSt pre old st →
      runM old st s = false → runM old st (subFlag pre' old' a s) = false := by
    intro n
    induction n with
    | zero =>
      intro s hlen st _ hrun
      have hs : s = [] := List.length_eq_zero.mp (Nat.le_zero.mp hlen)
      subst hs
      simpa [subFlag, subAux] using hrun
    | succ n ih =>
      intro s hlen st hreach hrun
      cases s with
      | nil => simpa [subFlag, subAux] using hrun
      | cons c s' =>
        have hlen' : s'.length ≤ n := by simp at hlen; omega
        cases hm : matchFlag pre' old' (c :: s') with
        | none =>
          rw [subFlag_cons_nomatch hm]
          cases hstep : mstep old st c with
          | rej => simp [runM, hstep]
          | acc =>
            simp only [runM, hstep] at hrun
            simp at hrun
          | next st2 =>
            have hrun2 : runM old st2 s' = false := by
              simpa only [runM, hstep] using hrun
            simp only [runM, hstep]
            exact ih s' hlen' st2 (reach_step hreach hstep) hrun2
        | some r =>
          rw [subFlag_cons_match hm]
          by_cases hst : st = .wordSt []
          · subst hst
            exfalso
            obtain ⟨sp, hdec, -, -, -⟩ := matchFlag_some_decomp hm
            have hc : c = '-' := by
              rcases hpre' with rfl | rfl
              · simp only [dashN, List.cons_append, List.append_assoc] at hdec
                exact (List.cons.inj hdec).1
              · simp only [dashNS, List.cons_append, List.append_assoc] at hdec
                exact (List.cons.inj hdec).1
            subst hc
            rw [runM_word_nil_cons old (by decide)] at hrun
            simp at hrun
          · exact runM_block hpre hpre' ho ha hoa _ st hreach hst
  exact fun s => main s.length s le_rfl

/-! ### `noFlagB`: a string free of any start of a `pre\s+old\b` match -/

/-- No match of `pre\s+old\b` starts at any position of `s`. -/
def noFlagB (pre old : Str) : Str → Bool
  | [] => true
  | c :: s => (matchFlag pre old (c :: s)).isNone && noFlagB pre old s

theorem noFlagB_cons_nomatch {pre old : Str} {c : Char} {s : Str}
    (h : matchFlag pre old (c :: s) = none) :
    noFlagB pre old (c :: s) = noFlagB pre old s := by
  simp [noFlagB, h]

theorem noFlagB_cons_head {pre old : Str} {c : Char} {s : Str}
    (h : noFlagB pre old (c :: s) = true) : matchFlag pre old (c :: s) = none := by
  simp only [noFlagB, Bool.and_eq_true, Option.isNone_iff_eq_none] at h
  exact h.1

theorem noFlagB_cons_tail {pre old : Str} {c : Char} {s : Str}
    (h : noFlagB pre old (c :: s) = true) : noFlagB pre old s = true := by
  simp only [noFlagB, Bool.and_eq_true] at h
  exact h.2

theorem noFlagB_append_right {pre old : Str} :
    ∀ {x y : Str}, noFlagB pre old (x ++ y) = true → noFlagB pre old y = true := by
  intro x
  induction x with
  | nil => exact fun h => h
  | cons c x' ih =>
    intro y h
    exact ih (noFlagB_cons_tail h)

theorem matchFlag_nodash {pre old : Str} (hpre : pre = dashN ∨ pre = dashNS)
    {c : Char} (hc : c ≠ '-') (s : Str) : matchFlag pre old (c :: s) = none := by
  obtain ⟨ps, hxps⟩ : ∃ ps, pre = '-' :: ps := by
    rcases hpre with rfl | rfl
    · exact ⟨['n'], rfl⟩
    · exact ⟨['-', 'n', 'a', 'm', 'e', 's', 'p', 'a', 'c', 'e'], rfl⟩
  rw [hxps]
  unfold matchFlag
  rw [stripPre]
  rw [if_neg hc]

theorem noFlagB_append_nodash {pre old : Str} (hpre : pre = dashN ∨ pre = dashNS) :
    ∀ {v : Str} (Y : Str), (∀ c ∈ v, c ≠ '-') →
      noFlagB pre old (v ++ Y) = noFlagB pre old Y := by
  intro v
  induction v with
  | nil => intro Y _; rfl
  | cons c v' ih =>
    intro Y hv
    rw [List.cons_append,
      noFlagB_cons_nomatch (matchFlag_nodash hpre (hv c (by simp)) _), ih Y]
    intro d hd
    exact hv d (by simp [hd])

/-- The replacement text `pre' ++ " " ++ a` contributes no start of a
`pre\s+old\b` match, whatever follows it. -/
theorem noFlagB_block {pre old a pre' : Str}
    (hpre : pre = dashN ∨ pre = dashNS)
    (hpre' : pre' = dashN ∨ pre' = dashNS)
    (ho : old ∈ NAMESPACES) (ha : a ∈ NAMESPACES) (hoa : old ≠ a)
    (Y : Str) :
    noFlagB pre old ((pre' ++ ' ' :: a) ++ Y) = noFlagB pre old Y := by
  have hne : old ≠ [] := ns_ne_nil ho
  have h0 : ∀ Z : Str, matchFlag pre old ((pre' ++ ' ' :: a) ++ Z) = none := by
    intro Z
    rw [matchFlag_none_iff_runM hne]
    exact runM_block hpre hpre' ho ha hoa Z (.preSt pre) (List.suffix_refl pre) (by simp)
  have hachars : ∀ c ∈ a, c ≠ '-' := fun c hc => (ns_char_facts ha hc).2.2
  rcases hpre' with rfl | rfl
  · have hb : ((dashN ++ ' ' :: a) ++ Y) = '-' :: ('n' :: ' ' :: (a ++ Y)) := by
      simp [dashN]
    rw [hb, noFlagB_cons_nomatch (by rw [← hb]; exact h0 Y),
      noFlagB_cons_nomatch (matchFlag_nodash hpre (by decide) _),
      noFlagB_cons_nomatch (matchFlag_nodash hpre (by decide) _),
      noFlagB_append_nodash hpre Y hachars]
  · have hb : ((dashNS ++ ' ' :: a) ++ Y)
        = '-' :: ('-' :: 'n' :: 'a' :: 'm' :: 'e' :: 's' :: 'p' :: 'a' :: 'c' :: 'e' :: ' ' :: (a ++ Y)) := by
      simp [dashNS]
    have h1 : matchFlag pre old
        ('-' :: 'n' :: 'a' :: 'm' :: 'e' :: 's' :: 'p' :: 'a' :: 'c' :: 'e' :: ' ' :: (a ++ Y))
        = none := by
      rw [matchFlag_none_iff_runM hne]
      rcases hpre with rfl | rfl
      · rw [show (dashN : Str) = '-' :: ['n'] from rfl, runM_pre_hit, runM_pre_hit]
        exact runM_pre_nil_nospace old (by decide) _
      · rw [show (dashNS : Str) = '-' :: '-' :: 'n' :: 'a' :: 'm' :: 'e' :: 's' :: 'p' :: 'a' :: 'c' :: 'e' :: [] from rfl,
          runM_pre_hit]
        exact runM_pre_miss old (by decide) _
    rw [hb, noFlagB_cons_nomatch (by rw [← hb]; exact h0 Y),
      noFlagB_cons_nomatch h1,
      noFlagB_cons_nomatch (matchFlag_nodash hpre (by decide) _),
      noFlagB_cons_nomatch (matchFlag_nodash hpre (by decide) _),
      noFlagB_cons_nomatch (matchFlag_nodash hpre (by decide) _),
      noFlagB_cons_nomatch (matchFlag_nodash hpre (by decide) _),
      noFlagB_cons_nomatch (matchFlag_nodash hpre (by decide) _),
      noFlagB_cons_nomatch (matchFlag_nodash hpre (by decide) _),
      noFlagB_cons_nomatch (matchFlag_nodash hpre (by decide) _),
      noFlagB_cons_nomatch (matchFlag_nodash hpre (by decide) _),
      noFlagB_cons_nomatch (matchFlag_nodash hpre (by decide) _),
      noFlagB_cons_nomatch (matchFlag_nodash hpre (by decide) _),
      noFlagB_append_nodash hpre Y hachars]

/-- A head position with no match keeps no match after a substitution pass
on its tail. -/
theorem matchFlag_none_transfer {pre pre' old old' a : Str}
    (hpre : pre = dashN ∨ pre = dashNS)
    (hpre' : pre' = dashN ∨ pre' = dashNS)
    (ho : old ∈ NAMESPACES) (ha : a ∈ NAMESPACES) (hoa : old ≠ a)
    {c : Char} {s : Str}
    (h : matchFlag pre old (c :: s) = none) :
    matchFlag pre old (c :: subFlag pre' old' a s) = none := by
  have hne : old ≠ [] := ns_ne_nil ho
  rw [matchFlag_none_iff_runM hne] at h ⊢
  obtain ⟨x, ps, hxps⟩ : ∃ x ps, pre = x :: ps := by
    rcases hpre with rfl | rfl
    · exact ⟨'-', ['n'], rfl⟩
    · exact ⟨'-', ['-', 'n', 'a', 'm', 'e', 's', 'p', 'a', 'c', 'e'], rfl⟩
  rw [hxps] at h ⊢
  by_cases hc : c = x
  · subst hc
    rw [runM_pre_hit] at h ⊢
    refine runM_subFlag_false hpre hpre' ho ha hoa s (.preSt ps) ?_ h
    show ps <:+ pre
    rw [hxps]
    exact List.suffix_cons c ps
  · rw [runM_pre_miss old hc]

/-- `noFlagB` is preserved by any one of the Normalizer's flag substitutions. -/
theorem noFlagB_subFlag_preserve {pre pre' old old' a : Str}
    (hpre : pre = dashN ∨ pre = dashNS)
    (hpre' : pre' = dashN ∨ pre' = dashNS)
    (ho : old ∈ NAMESPACES) (ha : a ∈ NAMESPACES) (hoa : old ≠ a) :
    ∀ s : Str, noFlagB pre old s = true →
      noFlagB pre old (subFlag pre' old' a s) = true := by
  have main : ∀ (n : Nat) (s : Str), s.length ≤ n → noFlagB pre old s = true →
      noFlagB pre old (subFlag pre' old' a s) = true := by
    intro n
    induction n with
    | zero =>
      intro s hlen hs
      have h0 : s = [] := List.length_eq_zero.mp (Nat.le_zero.mp hlen)
      subst h0
      exact hs
    | succ n ih =>
      intro s hlen hs
      cases s with
      | nil => exact hs
      | cons c s' =>
        have hlen' : s'.length ≤ n := by simp at hlen; omega
        cases hm : matchFlag pre' old' (c :: s') with
        | none =>
          rw [subFlag_cons_nomatch hm]
          have hhead := noFlagB_cons_head hs
          have htail := noFlagB_cons_tail hs
          have h1 : matchFlag pre old (c :: subFlag pre' old' a s') = none :=
            matchFlag_none_transfer hpre hpre' ho ha hoa hhead
          rw [noFlagB_cons_nomatch h1]
          exact ih s' hlen' htail
        | some r =>
          rw [subFlag_cons_match hm]
          rw [noFlagB_block hpre hpre' ho ha hoa]
          obtain ⟨w, hw⟩ := matchFlag_cons_some_tail hm
          have hr : noFlagB pre old r = true := by
            have htail := noFlagB_cons_tail hs
            rw [hw] at htail
            exact noFlagB_append_right htail
          refine ih r ?_ hr
          have : r.length ≤ s'.length := by
            rw [hw]; simp
          omega
  exact fun s => main s.length s le_rfl

/-- After the Normalizer substitutes `old` away (towards `a`), no
`pre\s+old\b` match is left anywhere. -/
theorem noFlagB_subFlag_self {pre old a : Str}
    (hpre : pre = dashN ∨ pre = dashNS)
    (ho : old ∈ NAMESPACES) (ha : a ∈ NAMESPACES) (hoa : old ≠ a) :
    ∀ s : Str, noFlagB pre old (subFlag pre old a s) = true := by
  have main : ∀ (n : Nat) (s : Str), s.length ≤ n →
      noFlagB pre old (subFlag pre old a s) = true := by
    intro n
    induction n with
    | zero =>
      intro s hlen
      have h0 : s = [] := List.length_eq_zero.mp (Nat.le_zero.mp hlen)
      subst h0
      rfl
    | succ n ih =>
      intro s hlen
      cases s with
      | nil => rfl
      | cons c s' =>
        have hlen' : s'.length ≤ n := by simp at hlen; omega
        cases hm : matchFlag pre old (c :: s') with
        | none =>
          rw [subFlag_cons_nomatch hm]
          have h1 : matchFlag pre old (c :: subFlag pre old a s') = none :=
            matchFlag_none_transfer hpre hpre ho ha hoa hm
          rw [noFlagB_cons_nomatch h1]
          exact ih s' hlen'
        | some r =>
          rw [subFlag_cons_match hm]
          rw [noFlagB_block hpre hpre ho ha hoa]
          obtain ⟨w, hw⟩ := matchFlag_cons_some_tail hm
          refine ih r ?_
          have : r.length ≤ s'.length := by
            rw [hw]; simp
          omega
  exact fun s => main s.length s le_rfl

/-- A substitution over a string with no match is the identity. -/
theorem subFlag_id_of_noFlagB {pre old a : Str} :
    ∀ {s : Str}, noFlagB pre old s = true → subFlag pre old a s = s := by
  intro s
  induction s with
  | nil => intro _; rfl
  | cons c s' ih =>
    intro hs
    rw [subFlag_cons_nomatch (noFlagB_cons_head hs), ih (noFlagB_cons_tail hs)]

/-! ### Fold-level consequences for the command rewriting -/

/-- The `for old_ns in NAMESPACES` loop over one command string, generalized
to an arbitrary list of namespaces. -/
def flagFold (a : Str) (L : List Str) (s : Str) : Str :=
  L.foldl (fun acc old =>
    if old = a then acc else subFlag dashNS old a (subFlag dashN old a acc)) s

theorem fixStepStr_eq_flagFold (a s : Str) : fixStepStr a s = flagFold a NAMESPACES s := rfl

theorem fixValidationCommand_eq_fixStepStr (a s : Str) :
    fixValidationCommand a s = fixStepStr a s := rfl

theorem get_namespace_mem (n : Nat) : get_namespace n ∈ NAMESPACES := by
  have h8 : n % 8 < 8 := Nat.mod_lt _ (by norm_num)
  have hall : ∀ k, k < 8 → NAMESPACES.getD k [] ∈ NAMESPACES := by decide
  exact hall (n % 8) h8

theorem flagFold_cons (a o : Str) (L : List Str) (s : Str) :
    flagFold a (o :: L) s
      = flagFold a L (if o = a then s else subFlag dashNS o a (subFlag dashN o a s)) := rfl

theorem noFlagB_flagFold_preserve {pre old a : Str}
    (hpre : pre = dashN ∨ pre = dashNS)
    (ho : old ∈ NAMESPACES) (ha : a ∈ NAMESPACES) (hoa : old ≠ a) :
    ∀ (L : List Str) (s : Str),
      noFlagB pre old s = true → noFlagB pre old (flagFold a L s) = true := by
  intro L
  induction L with
  | nil => exact fun s hs => hs
  | cons o L' ih =>
    intro s hs
    rw [flagFold_cons]
    by_cases hoa2 : o = a
    · rw [if_pos hoa2]
      exact ih s hs
    · rw [if_neg hoa2]
      have h1 : noFlagB pre old (subFlag dashN o a s) = true :=
        noFlagB_subFlag_preserve hpre (Or.inl rfl) ho ha hoa s hs
      have h2 : noFlagB pre old (subFlag dashNS o a (subFlag dashN o a s)) = true :=
        noFlagB_subFlag_preserve hpre (Or.inr rfl) ho ha hoa _ h1
      exact ih _ h2

theorem noFlagB_flagFold_mem {a : Str} (ha : a ∈ NAMESPACES) :
    ∀ (L : List Str) (s : Str), (∀ x ∈ L, x ∈ NAMESPACES) →
      ∀ old ∈ L, old ≠ a →
        noFlagB dashN old (flagFold a L s) = true ∧
        noFlagB dashNS old (flagFold a L s) = true := by
  intro L
  induction L with
  | nil =>
    intro s _ old h
    simp at h
  | cons o L' ih =>
    intro s hL old hold hoa
    rcases List.mem_cons.mp hold with rfl | hold'
    · rw [flagFold_cons, if_neg hoa]
      have hom : old ∈ NAMESPACES := hL old (by simp)
      have h1 : noFlagB dashN old (subFlag dashN old a s) = true :=
        noFlagB_subFlag_self (Or.inl rfl) hom ha hoa s
      have h2 : noFlagB dashN old (subFlag dashNS old a (subFlag dashN old a s)) = true :=
        noFlagB_subFlag_preserve (Or.inl rfl) (Or.inr rfl) hom ha hoa _ h1
      have h3 : noFlagB dashNS old (subFlag dashNS old a (subFlag dashN old a s)) = true :=
        noFlagB_subFlag_self (Or.inr rfl) hom ha hoa _
      exact ⟨noFlagB_flagFold_preserve (Or.inl rfl) hom ha hoa L' _ h2,
        noFlagB_flagFold_preserve (Or.inr rfl) hom ha hoa L' _ h3⟩
    · rw [flagFold_cons]
      exact ih _ (fun x hx => hL x (by simp [hx])) old hold' hoa

theorem flagFold_id {a : Str} :
    ∀ (L : List Str) (s : Str),
      (∀ o ∈ L, o = a ∨ (noFlagB dashN o s = true ∧ noFlagB dashNS o s = true)) →
      flagFold a L s = s := by
  intro L
  induction L with
  | nil => intro s _; rfl
  | cons o L' ih =>
    intro s hL
    rw [flagFold_cons]
    by_cases hoa : o = a
    · rw [if_pos hoa]
      exact ih s (fun x hx => hL x (by simp [hx]))
    · rcases hL o (by simp) with h | ⟨h1, h2⟩
      · exact absurd h hoa
      · rw [if_neg hoa, subFlag_id_of_noFlagB h1, subFlag_id_of_noFlagB h2]
        exact ih s (fun x hx => hL x (by simp [hx]))

/-- No `-n <old>` / `--namespace <old>` flag of a namespace other than the
assigned one survives a command-rewriting pass. -/
theorem fixStepStr_clears {a old : Str} (ha : a ∈ NAMESPACES)
    (ho : old ∈ NAMESPACES) (hoa : old ≠ a) (s : Str) :
    noFlagB dashN old (fixStepStr a s) = true ∧
    noFlagB dashNS old (fixStepStr a s) = true := by
  rw [fixStepStr_eq_flagFold]
  exact noFlagB_flagFold_mem ha NAMESPACES s (fun x hx => hx) old ho hoa

/-- Command rewriting is idempotent. -/
theorem fixStepStr_idem {a : Str} (ha : a ∈ NAMESPACES) (s : Str) :
    fixStepStr a (fixStepStr a s) = fixStepStr a s := by
  rw [fixStepStr_eq_flagFold a (fixStepStr a s)]
  apply flagFold_id
  intro o ho
  by_cases hoa : o = a
  · exact Or.inl hoa
  · exact Or.inr (fixStepStr_clears ha ho hoa s)

/-! ### Marker machinery for descriptions -/

/-- No occurrence of `||old||` starts anywhere in `s`. -/
def noMarkerB (old : Str) : Str → Bool
  | [] => true
  | c :: s => (stripPre (mpat old) (c :: s)).isNone && noMarkerB old s

theorem noMarkerB_cons_head {old : Str} {c : Char} {s : Str}
    (h : noMarkerB old (c :: s) = true) : stripPre (mpat old) (c :: s) = none := by
  simp only [noMarkerB, Bool.and_eq_true, Option.isNone_iff_eq_none] at h
  exact h.1

theorem noMarkerB_cons_tail {old : Str} {c : Char} {s : Str}
    (h : noMarkerB old (c :: s) = true) : noMarkerB old s = true := by
  simp only [noMarkerB, Bool.and_eq_true] at h
  exact h.2

/-- A marker substitution over a string with no marker occurrence is the
identity. -/
theorem subMarker_id_of_noMarkerB {old a : Str} :
    ∀ {s : Str}, noMarkerB old s = true → subMarker old a s = s := by
  intro s
  induction s with
  | nil => intro _; rfl
  | cons c s' ih =>
    intro hs
    rw [subMarker_cons_nomatch (noMarkerB_cons_head hs), ih (noMarkerB_cons_tail hs)]

/-- The `for old_ns in NAMESPACES` loop over a description, generalized to an
arbitrary list of namespaces. -/
def markFold (a : Str) (L : List Str) (d : Str) : Str :=
  L.foldl (fun acc old => if old = a then acc else subMarker old a acc) d

theorem fix_description_eq_markFold (a d : Str) :
    fix_description a d = markFold a NAMESPACES d := rfl

theorem markFold_cons (a o : Str) (L : List Str) (d : Str) :
    markFold a (o :: L) d = markFold a L (if o = a then d else subMarker o a d) := rfl

theorem markFold_id {a : Str} :
    ∀ (L : List Str) (d : Str),
      (∀ o ∈ L, o = a ∨ noMarkerB o d = true) → markFold a L d = d := by
  intro L
  induction L with
  | nil => intro d _; rfl
  | cons o L' ih =>
    intro d hL
    rw [markFold_cons]
    by_cases hoa : o = a
    · rw [if_pos hoa]
      exact ih d (fun x hx => hL x (by simp [hx]))
    · rcases hL o (by simp) with h | h
      · exact absurd h hoa
      · rw [if_neg hoa, subMarker_id_of_noMarkerB h]
        exact ih d (fun x hx => hL x (by simp [hx]))

/-! ### Record-level idempotence components -/

theorem fixNamespacesField_idem {a : Str} (ha : a ∈ NAMESPACES) (ns : List Str) :
    fixNamespacesField a (fixNamespacesField a ns) = fixNamespacesField a ns := by
  rcases ns with _ | ⟨x, _ | ⟨y, rest⟩⟩
  · rfl
  · by_cases hx : x ∈ NAMESPACES ++ [([] : Str)]
    · simp only [fixNamespacesField, if_pos hx]
      rw [if_pos (by simp [ha])]
    · simp only [fixNamespacesField, if_neg hx]
  · rfl

theorem fix_description_idem {a : Str} (d : Str)
    (hd : ∀ o ∈ NAMESPACES, o ≠ a → noMarkerB o (fix_description a d) = true) :
    fix_description a (fix_description a d) = fix_description a d := by
  rw [fix_description_eq_markFold a (fix_description a d)]
  apply markFold_id
  intro o ho
  by_cases hoa : o = a
  · exact Or.inl hoa
  · exact Or.inr (hd o ho hoa)

theorem fixCore_idem (n : Nat) (q : Question)
    (hd : ∀ d, q.description = some d → ∀ o ∈ NAMESPACES, o ≠ get_namespace n →
      noMarkerB o (fix_description (get_namespace n) d) = true) :
    fixCore n (fixCore n q) = fixCore n q := by
  obtain ⟨inf, desc, sol, val, ex⟩ := q
  have ha : get_namespace n ∈ NAMESPACES := get_namespace_mem n
  simp only [fixCore]
  refine Question.mk.injEq _ _ _ _ _ _ _ _ _ _ ▸ ?_
  refine ⟨?_, ?_, ?_, ?_, rfl⟩
  · cases inf with
    | none => rfl
    | some i =>
      obtain ⟨ns, iex⟩ := i
      cases ns with
      | none => rfl
      | some l =>
        simp [fixNamespacesField_idem ha]
  · cases desc with
    | none => rfl
    | some d =>
      simp only [Option.map_some']
      rw [fix_description_idem d (hd d rfl)]
  · cases sol with
    | none => rfl
    | some s =>
      obtain ⟨steps, sex⟩ := s
      cases steps with
      | none => rfl
      | some L =>
        simp only [Option.map_some', List.map_map]
        have hfun : (fixStepStr (get_namespace n) ∘ fixStepStr (get_namespace n))
            = fixStepStr (get_namespace n) := by
          funext x
          exact fixStepStr_idem ha x
        rw [hfun]
  · cases val with
    | none => rfl
    | some V =>
      simp only [Option.map_some', List.map_map]
      congr 2
      funext v
      obtain ⟨cmd, vex⟩ := v
      cases cmd with
      | none => rfl
      | some c =>
        simp only [Function.comp_apply, Option.map_some']
        simp only [show ∀ s, fixValidationCommand (get_namespace n) s
            = fixStepStr (get_namespace n) s from fun s => rfl]
        rw [fixStepStr_idem ha]

/-! ### Positive rewrite characterizations: each occurrence is replaced -/

theorem dropWhile_all_append {p : Char → Bool} :
    ∀ {x : Str} (y : Str), (∀ c ∈ x, p c = true) →
      List.dropWhile p (x ++ y) = List.dropWhile p y := by
  intro x
  induction x with
  | nil => intro y _; rfl
  | cons c x' ih =>
    intro y hx
    rw [List.cons_append]
    rw [List.dropWhile_cons]
    rw [if_pos (hx c (by simp))]
    exact ih y (fun d hd => hx d (by simp [hd]))

/-- The string `pre` + spaces + `old` + boundary-tail matches at its head. -/
theorem matchFlag_build {pre old sp t : Str} (ho : old ∈ NAMESPACES) (hsp : sp ≠ [])
    (hspc : ∀ c ∈ sp, pyIsSpace c = true) (hb : bdry t = true) :
    matchFlag pre old (pre ++ (sp ++ (old ++ t))) = some t := by
  cases sp with
  | nil => exact absurd rfl hsp
  | cons d sp' =>
    unfold matchFlag
    rw [stripPre_append]
    rw [List.cons_append]
    dsimp only
    rw [if_pos (hspc d (by simp))]
    rw [dropWhile_all_append (old ++ t) (fun c hc => hspc c (by simp [hc]))]
    have h3 : List.dropWhile pyIsSpace (old ++ t) = old ++ t := by
      cases old with
      | nil => exact absurd rfl (ns_ne_nil ho)
      | cons x w =>
        rw [List.cons_append, List.dropWhile_cons, if_neg]
        rw [(ns_char_facts ho (by simp)).2.1]
        simp
    rw [h3, matchWord_append hb]

/-- No match of `pre\s+old\b` starts within the first `u.length` positions
of `u ++ rest`. -/
def flagFreeUpTo (pre old : Str) : Str → Str → Bool
  | [], _ => true
  | c :: u, rest => (matchFlag pre old (c :: (u ++ rest))).isNone && flagFreeUpTo pre old u rest

theorem flagFreeUpTo_head {pre old : Str} {c : Char} {u rest : Str}
    (h : flagFreeUpTo pre old (c :: u) rest = true) :
    matchFlag pre old (c :: (u ++ rest)) = none := by
  simp only [flagFreeUpTo, Bool.and_eq_true, Option.isNone_iff_eq_none] at h
  exact h.1

theorem flagFreeUpTo_tail {pre old : Str} {c : Char} {u rest : Str}
    (h : flagFreeUpTo pre old (c :: u) rest = true) :
    flagFreeUpTo pre old u rest = true := by
  simp only [flagFreeUpTo, Bool.and_eq_true] at h
  exact h.2

/-- Every flag occurrence after a match-free stretch is rewritten to the
assigned namespace, and the scan continues behind it. -/
theorem subFlag_rewrite {pre old a : Str} (ho : old ∈ NAMESPACES) :
    ∀ {u : Str} {sp t : Str}, sp ≠ [] → (∀ c ∈ sp, pyIsSpace c = true) →
    bdry t = true →
    flagFreeUpTo pre old u (pre ++ (sp ++ (old ++ t))) = true →
    subFlag pre old a (u ++ (pre ++ (sp ++ (old ++ t))))
      = u ++ ((pre ++ ' ' :: a) ++ subFlag pre old a t) := by
  intro u
  induction u with
  | nil =>
    intro sp t hsp hspc hb _
    simp only [List.nil_append]
    have hm : matchFlag pre old (pre ++ (sp ++ (old ++ t))) = some t :=
      matchFlag_build ho hsp hspc hb
    rcases hP : pre ++ (sp ++ (old ++ t)) with _ | ⟨c, rest⟩
    · exfalso
      cases sp with
      | nil => exact hsp rfl
      | cons d sp' => simp at hP
    · rw [hP] at hm
      rw [subFlag_cons_match hm]
  | cons c u' ih =>
    intro sp t hsp hspc hb hu
    rw [List.cons_append, subFlag_cons_nomatch (flagFreeUpTo_head hu),
      ih hsp hspc hb (flagFreeUpTo_tail hu), List.cons_append]

/-- No occurrence of `||old||` starts within the first `u.length` positions
of `u ++ rest`. -/
def markFreeUpTo (old : Str) : Str → Str → Bool
  | [], _ => true
  | c :: u, rest => (stripPre (mpat old) (c :: (u ++ rest))).isNone && markFreeUpTo old u rest

theorem markFreeUpTo_head {old : Str} {c : Char} {u rest : Str}
    (h : markFreeUpTo old (c :: u) rest = true) :
    stripPre (mpat old) (c :: (u ++ rest)) = none := by
  simp only [markFreeUpTo, Bool.and_eq_true, Option.isNone_iff_eq_none] at h
  exact h.1

theorem markFreeUpTo_tail {old : Str} {c : Char} {u rest : Str}
    (h : markFreeUpTo old (c :: u) rest = true) :
    markFreeUpTo old u rest = true := by
  simp only [markFreeUpTo, Bool.and_eq_true] at h
  exact h.2

/-- A `||old||` marker after a marker-free stretch is rewritten to
`||new||`, and the scan continues behind it. -/
theorem subMarker_rewrite {old a : Str} :
    ∀ {u v : Str}, markFreeUpTo old u (mpat old ++ v) = true →
      subMarker old a (u ++ (mpat old ++ v)) = u ++ (mpat a ++ subMarker old a v) := by
  intro u
  induction u with
  | nil =>
    intro v _
    simp only [List.nil_append]
    have hm : stripPre (mpat old) (mpat old ++ v) = some v := stripPre_append _ _
    have hshape : mpat old ++ v = '|' :: (('|' :: (old ++ ['|', '|'])) ++ v) := by
      simp [mpat]
    rw [hshape] at hm
    rw [hshape, subMarker_cons_match hm]
  | cons c u' ih =>
    intro v hu
    rw [List.cons_append, subMarker_cons_nomatch (markFreeUpTo_head hu),
      ih (markFreeUpTo_tail hu), List.cons_append]

/-- A single marker rewrite through the whole namespace loop. -/
theorem markFold_rewrite_once {o a d d2 : Str} (hoa : o ≠ a) :
    ∀ L : List Str, o ∈ L →
      (∀ o2 ∈ L, o2 = a ∨ o2 = o ∨ (noMarkerB o2 d = true ∧ noMarkerB o2 d2 = true)) →
      subMarker o a d = d2 → noMarkerB o d2 = true →
      markFold a L d = d2 := by
  intro L
  induction L with
  | nil =>
    intro h
    simp at h
  | cons x L' ih =>
    intro hmem hL hsub hd2
    rw [markFold_cons]
    by_cases hxa : x = a
    · rw [if_pos hxa]
      have hmem' : o ∈ L' := by
        rcases List.mem_cons.mp hmem with rfl | h
        · exact absurd hxa hoa
        · exact h
      exact ih hmem' (fun o2 h2 => hL o2 (by simp [h2])) hsub hd2
    · rw [if_neg hxa]
      by_cases hxo : x = o
      · subst hxo
        rw [hsub]
        apply markFold_id
        intro o2 h2
        rcases hL o2 (by simp [h2]) with h | h | h
        · exact Or.inl h
        · subst h
          exact Or.inr hd2
        · exact Or.inr h.2
      · rcases hL x (by simp) with h | h | h
        · exact absurd h hxa
        · exact absurd h hxo
        · rw [subMarker_id_of_noMarkerB h.1]
          have hmem' : o ∈ L' := by
            rcases List.mem_cons.mp hmem with rfl | hm
            · exact absurd rfl hxo
            · exact hm
          exact ih hmem' (fun o2 h2 => hL o2 (by simp [h2])) hsub hd2

/-- A marker-free stretch passes through a marker substitution unchanged. -/
theorem subMarker_free_stretch {o a : Str} :
    ∀ {u v : Str}, markFreeUpTo o u v = true →
      subMarker o a (u ++ v) = u ++ subMarker o a v := by
  intro u
  induction u with
  | nil => intro v _; simp
  | cons c u' ih =>
    intro v hu
    rw [List.cons_append, subMarker_cons_nomatch (markFreeUpTo_head hu),
      ih (markFreeUpTo_tail hu), List.cons_append]

/-- A description decomposed into gaps, complete `||label||` markers, and a
tail: `mixJoin [(g1, x1), ..., (gk, xk)] tail` is
`g1 ++ ||x1|| ++ ... ++ gk ++ ||xk|| ++ tail`. -/
def mixJoin : List (Str × Str) → Str → Str
  | [], tail => tail
  | (g, x) :: rest, tail => g ++ (mpat x ++ mixJoin rest tail)

/-- The scan for `||o||` meets exactly the `o`-labeled markers of the
decomposition: no `||o||` occurrence starts inside a gap, inside a marker
of another label, or in the tail. -/
def cleanFor (o : Str) : List (Str × Str) → Str → Bool
  | [], tail => noMarkerB o tail
  | (g, x) :: rest, tail =>
    (if x = o then markFreeUpTo o g (mpat o ++ mixJoin rest tail)
     else markFreeUpTo o (g ++ mpat x) (mixJoin rest tail)) &&
    cleanFor o rest tail

/-- Rewrite the labels equal to `o` into `a`. -/
def relabel (o a : Str) (pieces : List (Str × Str)) : List (Str × Str) :=
  pieces.map fun p => if p.2 = o then (p.1, a) else p

/-- `cleanFor` for every namespace of the loop, each against the
decomposition as the loop has rewritten it so far. -/
def cleanAll (a : Str) : List Str → List (Str × Str) → Str → Bool
  | [], _, _ => true
  | o :: L, pieces, tail =>
    if o = a then cleanAll a L pieces tail
    else cleanFor o pieces tail && cleanAll a L (relabel o a pieces) tail

/-- The labels after the whole loop. -/
def relabelAll (a : Str) : List Str → List (Str × Str) → List (Str × Str)
  | [], pieces => pieces
  | o :: L, pieces => relabelAll a L (if o = a then pieces else relabel o a pieces)

/-- One marker substitution rewrites exactly the `o`-labeled markers of a
clean decomposition. -/
theorem subMarker_mixJoin {o a : Str} :
    ∀ (pieces : List (Str × Str)) (tail : Str), cleanFor o pieces tail = true →
      subMarker o a (mixJoin pieces tail) = mixJoin (relabel o a pieces) tail := by
  intro pieces
  induction pieces with
  | nil =>
    intro tail h
    exact subMarker_id_of_noMarkerB h
  | cons p rest ih =>
    obtain ⟨g, x⟩ := p
    intro tail h
    simp only [cleanFor, Bool.and_eq_true] at h
    obtain ⟨h1, h2⟩ := h
    by_cases hx : x = o
    · subst hx
      rw [if_pos rfl] at h1
      show subMarker x a (g ++ (mpat x ++ mixJoin rest tail)) = _
      rw [subMarker_rewrite h1, ih tail h2]
      have hmap : relabel x a ((g, x) :: rest) = (g, a) :: relabel x a rest := by
        unfold relabel
        simp only [List.map_cons]
        rw [if_pos trivial]
      rw [hmap]
      rfl
    · rw [if_neg hx] at h1
      show subMarker o a (g ++ (mpat x ++ mixJoin rest tail)) = _
      have hassoc : g ++ (mpat x ++ mixJoin rest tail)
          = (g ++ mpat x) ++ mixJoin rest tail := by simp
      rw [hassoc, subMarker_free_stretch h1, ih tail h2]
      have hmap : relabel o a ((g, x) :: rest) = (g, x) :: relabel o a rest := by
        unfold relabel
        simp only [List.map_cons]
        rw [if_neg hx]
      rw [hmap]
      show (g ++ mpat x) ++ mixJoin (relabel o a rest) tail
          = g ++ (mpat x ++ mixJoin (relabel o a rest) tail)
      rw [List.append_assoc]

/-- The whole namespace loop over a clean decomposition rewrites exactly
the listed markers, pass by pass. -/
theorem markFold_mixJoin {a : Str} :
    ∀ (L : List Str) (pieces : List (Str × Str)) (tail : Str),
      cleanAll a L pieces tail = true →
      markFold a L (mixJoin pieces tail) = mixJoin (relabelAll a L pieces) tail := by
  intro L
  induction L with
  | nil => intro pieces tail _; rfl
  | cons o L' ih =>
    intro pieces tail h
    rw [markFold_cons]
    simp only [cleanAll] at h
    simp only [relabelAll]
    by_cases hoa : o = a
    · rw [if_pos hoa] at h
      rw [if_pos hoa, if_pos hoa]
      exact ih pieces tail h
    · rw [if_neg hoa] at h
      rw [if_neg hoa, if_neg hoa]
      simp only [Bool.and_eq_true] at h
      rw [subMarker_mixJoin pieces tail h.1]
      exact ih (relabel o a pieces) tail h.2

/-- When every label is covered by the loop (or already the assigned one),
the loop turns every label into the assigned namespace. -/
theorem relabelAll_to_a {a : Str} :
    ∀ (L : List Str) (pieces : List (Str × Str)),
      (∀ p ∈ pieces, p.2 = a ∨ p.2 ∈ L) →
      relabelAll a L pieces = pieces.map fun p => (p.1, a) := by
  intro L
  induction L with
  | nil =>
    intro pieces h
    show pieces = _
    induction pieces with
    | nil => rfl
    | cons q qs ihq =>
      have hq := h q (by simp)
      simp only [List.mem_nil_iff, or_false] at hq
      rw [List.map_cons, ← ihq (fun p hp => h p (by simp [hp]))]
      congr 1
      rw [← hq]
  | cons o L' ih =>
    intro pieces h
    simp only [relabelAll]
    by_cases hoa : o = a
    · rw [if_pos hoa]
      apply ih
      intro p hp
      rcases h p hp with h1 | h1
      · exact Or.inl h1
      · rcases List.mem_cons.mp h1 with h2 | h2
        · exact Or.inl (h2.trans hoa)
        · exact Or.inr h2
    · rw [if_neg hoa]
      have hfun : ((fun p : Str × Str => (p.1, a))
            ∘ fun p : Str × Str => if p.2 = o then (p.1, a) else p)
          = fun p : Str × Str => (p.1, a) := by
        funext p
        by_cases hp : p.2 = o
        · rw [Function.comp_apply, if_pos hp]
        · rw [Function.comp_apply, if_neg hp]
      have hmapeq : (relabel o a pieces).map (fun p => (p.1, a))
          = pieces.map fun p => (p.1, a) := by
        unfold relabel
        rw [List.map_map, hfun]
      rw [← hmapeq]
      apply ih
      intro p hp
      rcases List.mem_map.mp hp with ⟨p0, hp0, heq⟩
      by_cases hx : p0.2 = o
      · rw [if_pos hx] at heq
        rw [← heq]
        exact Or.inl rfl
      · rw [if_neg hx] at heq
        rw [← heq]
        rcases h p0 hp0 with h1 | h1
        · exact Or.inl h1
        · rcases List.mem_cons.mp h1 with h2 | h2
          · exact absurd h2 hx
          · exact Or.inr h2

/-! ### The markdown-to-JSON Extractor (script.py) -/

/-- Token class `[a-z0-9-]` of script.py's namespace regexes. -/
def isTokChar (c : Char) : Bool :=
  ('a' ≤ c && c ≤ 'z') || c.isDigit || c = '-'

/-- Match `pre\s+([a-z0-9-]+)` at the head of `s`; returns the captured
token and the rest after it. -/
def matchTok (pre : Str) (s : Str) : Option (Str × Str) :=
  match stripPre pre s with
  | none => none
  | some t =>
    match t with
    | [] => none
    | c :: t2 =>
      if pyIsSpace c then
        let u := t2.dropWhile pyIsSpace
        let tok := u.takeWhile isTokChar
        if tok = [] then none else some (tok, u.dropWhile isTokChar)
      else none

/-- `re.findall(pre + r"\s+([a-z0-9-]+)", s)`: all captured tokens, left to
right, non-overlapping, with the same skip-counter device as `subAux`. -/
def tokAux (pre : Str) : Nat → Str → List Str
  | _, [] => []
  | Nat.succ n, _ :: s => tokAux pre n s
  | 0, c :: s =>
    match matchTok pre (c :: s) with
    | some (tok, r) => tok :: tokAux pre (s.length - r.length) s
    | none => tokAux pre 0 s

def findTok (pre : Str) (s : Str) : List Str := tokAux pre 0 s

/-- The literal `namespace` of the second detection regex. -/
def nsWord : Str := "namespace".toList

/-- The sentinel `default`. -/
def defaultNs : Str := "default".toList

/-- script.py `detect_namespace` lines 53-58.  The second regex runs only
when the first found nothing; Python's `list(set(...))` is modelled as
`dedup` (the set's iteration order is unobservable in the claims below,
which are membership statements). -/
def detect_namespace (block : Str) : List Str :=
  let namespaces := findTok dashN block
  let namespaces2 := if namespaces = [] then findTok nsWord block else namespaces
  if namespaces2.dedup = [] then [defaultNs] else namespaces2.dedup

/-- The backtick character (code point 96). -/
def btick : Char := Char.ofNat 96

/-- The opening fence-plus-tag of `r"<3 backticks>bash([\s\S]*?)<3 backticks>"`. -/
def fenceBash : Str := btick :: btick :: btick :: 'b' :: 'a' :: 's' :: 'h' :: []

/-- A closing fence: three backticks. -/
def fenceClose : Str := btick :: btick :: btick :: []

/-- First occurrence of the closing fence in `s`: `some (before, after)`. -/
def findClose : Str → Option (Str × Str)
  | [] => none
  | c :: s =>
    match stripPre fenceClose (c :: s) with
    | some r => some ([], r)
    | none => (findClose s).map (fun p => (c :: p.1, p.2))

/-- Match the shell-block regex at the head: the lazily captured content
(everything up to the first closing fence) and the rest after it. -/
def matchBash (s : Str) : Option (Str × Str) :=
  match stripPre fenceBash s with
  | none => none
  | some t => findClose t

/-- `re.findall` of the shell-block regex over a whole section body. -/
def bashAux : Nat → Str → List Str
  | _, [] => []
  | Nat.succ n, _ :: s => bashAux n s
  | 0, c :: s =>
    match matchBash (c :: s) with
    | some (content, r) => content :: bashAux (s.length - r.length) s
    | none => bashAux 0 s

def findBashBlocks (block : Str) : List Str := bashAux 0 block

/-- Python `str.strip()`: remove leading and trailing whitespace. -/
def pyStrip (s : Str) : Str :=
  ((s.dropWhile pyIsSpace).reverse.dropWhile pyIsSpace).reverse

/-- script.py `extract_kubectl_steps` lines 68-78: the non-blank stripped
lines of every shell block, skipping `#` comment lines, in order. -/
def extract_kubectl_steps (block : Str) : List Str :=
  (findBashBlocks block).flatMap fun c =>
    ((((pyStrip c).splitOn '\n').map pyStrip).filter fun l => !l.isEmpty).filter
      fun l => !(l.head? == some '#')

/-- Case-insensitive prefix strip (for `re.IGNORECASE`). -/
def stripPreCI : Str → Str → Option Str
  | [], s => some s
  | _ :: _, [] => none
  | p :: ps, c :: cs => if c.toLower = p.toLower then stripPreCI ps cs else none

/-- A whole-word, case-insensitive hit of `key` at the current position;
`prev` is the character to the left (if any). -/
def wordHitAt (key : Str) (prev : Option Char) (s : Str) : Bool :=
  (match prev with
   | none => true
   | some p => !isWordChar p) &&
  (match stripPreCI key s with
   | none => false
   | some rest => bdry rest)

/-- `re.search(rf"\b{key}\b", block, re.IGNORECASE)` as a boolean. -/
def wordSearchAux (key : Str) : Option Char → Str → Bool
  | _, [] => false
  | prev, c :: s => wordHitAt key prev (c :: s) || wordSearchAux key (some c) s

def wordSearch (key block : Str) : Bool := wordSearchAux key none block

/-- script.py RESOURCE_MAP, in source (insertion) order. -/
def RESOURCE_MAP : List (Str × Str) :=
  [("pod".toList, "pods".toList),
   ("pods".toList, "pods".toList),
   ("deployment".toList, "deployments".toList),
   ("deploy".toList, "deployments".toList),
   ("configmap".toList, "configmaps".toList),
   ("secret".toList, "secrets".toList),
   ("service".toList, "services".toList),
   ("svc".toList, "services".toList),
   ("ingress".toList, "ingresses".toList),
   ("namespace".toList, "namespaces".toList),
   ("quota".toList, "resourcequotas".toList),
   ("hpa".toList, "horizontalpodautoscalers".toList),
   ("cronjob".toList, "cronjobs".toList),
   ("job".toList, "jobs".toList),
   ("pvc".toList, "persistentvolumeclaims".toList),
   ("pv".toList, "persistentvolumes".toList)]

/-- Lexicographic (code-point) order on strings, as Python `sorted` uses. -/
def lexLe : Str → Str → Bool
  | [], _ => true
  | _ :: _, [] => false
  | a :: as, b :: bs => if a = b then lexLe as bs else decide (a < b)

def insertStr (x : Str) : List Str → List Str
  | [] => [x]
  | y :: ys => if lexLe x y then x :: y :: ys else y :: insertStr x ys

def sortStrs : List Str → List Str
  | [] => []
  | x :: xs => insertStr x (sortStrs xs)

/-- script.py `detect_resources` lines 60-66: `sorted(found)` where `found`
is the set of canonical names whose keyword occurs whole-word,
case-insensitively. -/
def detect_resources (block : Str) : List Str :=
  sortStrs (((RESOURCE_MAP.filter fun kv => wordSearch kv.1 block).map Prod.snd).dedup)

/-- script.py CATEGORY_MAP, lines 37-48. -/
def CATEGORY_MAP : List (Str × Str) :=
  [("a.core_concepts.md".toList, "Core Concepts".toList),
   ("b.multi_container_pods.md".toList, "Multi-Container Pods".toList),
   ("c.pod_design.md".toList, "Pod Design".toList),
   ("d.configuration.md".toList, "Configuration".toList),
   ("e.observability.md".toList, "Observability".toList),
   ("f.services.md".toList, "Services and Networking".toList),
   ("g.state.md".toList, "State Persistence".toList),
   ("h.helm.md".toList, "Helm".toList),
   ("i.crd.md".toList, "Custom Resources".toList),
   ("j.podman.md".toList, "Container Management".toList)]

/-- `CATEGORY_MAP.get(file_name, "General")`. -/
def categoryOf (fname : Str) : Str :=
  match CATEGORY_MAP.find? (fun kv => kv.1 == fname) with
  | some kv => kv.2
  | none => "General".toList

def ID_PREFIX : Str := "ckad-i-".toList
def START_ID : Nat := 101
def DEFAULT_POINTS : Nat := 6
def DEFAULT_TIME : Nat := 10

/-- The single placeholder validation entry of script.py lines 107-114. -/
structure EValidation where
  command : Str
  expected : Str
  points : Nat
  description : Str
  deriving DecidableEq

/-- The record emitted by script.py `create_json_obj` (the
`infrastructure` sub-object is flattened into the
`namespaces`/`resources`/`prerequisites` fields, `solution.steps` into
`solutionSteps`). -/
structure ERecord where
  id : Str
  title : Str
  description : Str
  difficulty : Str
  category : Str
  tags : List Str
  points : Nat
  timeLimit : Nat
  namespaces : List Str
  resources : List Str
  prerequisites : List Str
  solutionSteps : List Str
  validations : List EValidation
  deriving DecidableEq

/-- script.py `create_json_obj` lines 80-116. -/
def create_json_obj (title block fname : Str) (objId : Nat) : ERecord :=
  let category := categoryOf fname
  let namespaces := detect_namespace block
  let resources := detect_resources block
  let steps := extract_kubectl_steps block
  { id := ID_PREFIX ++ Nat.toDigits 10 objId,
    title := pyStrip title,
    description := pyStrip title,
    difficulty := "intermediate".toList,
    category := category,
    tags := (resources ++ namespaces).dedup,
    points := DEFAULT_POINTS,
    timeLimit := DEFAULT_TIME,
    namespaces := namespaces,
    resources := resources,
    prerequisites := [],
    solutionSteps := steps.enum.map fun p => Nat.toDigits 10 (p.1 + 1) ++ ('.' :: ' ' :: p.2),
    validations := [⟨"echo OK".toList, "OK".toList, 1, "Placeholder validation".toList⟩] }

/-- Match `### (.+)` at the head of `s`: the literal `### ` then the greedy
`(.+)` capture (a nonempty run of non-newline characters).  Returns the
captured title and the rest after the match. -/
def matchSec (s : Str) : Option (Str × Str) :=
  match stripPre ['#', '#', '#', ' '] s with
  | none => none
  | some t =>
    let title := t.takeWhile fun c => !(c == '\n')
    if title = [] then none else some (title, t.dropWhile fun c => !(c == '\n'))

/-- First match of `### (.+)` in `s`: the unmatched text before it, the
captured title, and the rest after the match. -/
def findSec : Str → Option (Str × Str × Str)
  | [] => none
  | c :: s =>
    match matchSec (c :: s) with
    | some (t, r) => some ([], t, r)
    | none => (findSec s).map fun p => (c :: p.1, p.2.1, p.2.2)

/-- The sections after the first `### (.+)` match: each carries its title
and the body up to the next match (or end of file).  The fuel argument is
a structural-recursion device; `sectize` supplies enough of it. -/
def sectAux : Nat → Str → Str → List (Str × Str)
  | 0, t, r => [(t, r)]
  | Nat.succ fuel, t, r =>
    match findSec r with
    | none => [(t, r)]
    | some (b, t2, r2) => (t, b) :: sectAux fuel t2 r2

/-- script.py `main` lines 130-135: one section per `### (.+)` match, title
= the captured group, body = `text[match.end() : next match.start()]` (or
to end of file). -/
def sectize (text : Str) : List (Str × Str) :=
  match findSec text with
  | none => []
  | some (_, t, r) => sectAux r.length t r

/-- script.py `main` lines 131-143, per markdown file: the emitted records,
with sequential ids from `startId`. -/
def processFile (text fname : Str) (startId : Nat) : List ERecord :=
  (sectize text).enum.map fun p => create_json_obj p.2.1 p.2.2 fname (startId + p.1)

/-! ### The Normalizer's batch loop with exceptions (fix-namespaces.py main) -/

/-- One file of the Normalizer's batch; reading/parsing and writing may
raise, which the `Except` values model. -/
structure FileJob where
  name : Str
  readParse : Except Str Question
  writeOut : Except Str Unit

/-- fix-namespaces.py `fix_question_file` with its `try`/`except` (lines
17-85): an exception while reading, parsing or writing is caught by the
handler and the function returns `False`; a digitless filename also returns
`False`; otherwise the transformed record is written and `True` returned. -/
def fix_question_file_run (j : FileJob) : Bool × Option Question :=
  match j.readParse with
  | .error _ => (false, none)
  | .ok q =>
    match extractNum j.name with
    | none => (false, none)
    | some n =>
      match j.writeOut with
      | .error _ => (false, none)
      | .ok _ => (true, some (fixCore n q))

/-- fix-namespaces.py `main` lines 87-105: the three reported counters
(total processed, successfully updated, failed). -/
def mainCounts (jobs : List FileJob) : Nat × Nat × Nat :=
  let total := jobs.length
  let updated := (jobs.filter fun j => (fix_question_file_run j).1).length
  (total, updated, total - updated)

/-! ### Support lemmas for the token findall -/

theorem isTokChar_not_space {c : Char} (h : isTokChar c = true) : pyIsSpace c = false := by
  by_contra hsp
  rw [Bool.not_eq_false] at hsp
  simp only [pyIsSpace, Bool.or_eq_true, decide_eq_true_eq] at hsp
  rcases hsp with ((((rfl | rfl) | rfl) | rfl) | rfl) | rfl <;> simp [isTokChar] at h

theorem takeWhile_all_append {p : Char → Bool} {x y : Str}
    (hx : ∀ c ∈ x, p c = true) (hy : y = [] ∨ ∃ c ys, y = c :: ys ∧ p c = false) :
    (x ++ y).takeWhile p = x ∧ (x ++ y).dropWhile p = y := by
  induction x with
  | nil =>
    rcases hy with rfl | ⟨c, ys, rfl, hc⟩
    · exact ⟨rfl, rfl⟩
    · constructor
      · simp [List.takeWhile_cons, hc]
      · simp [List.dropWhile_cons, hc]
  | cons d x' ih =>
    have hd : p d = true := hx d (by simp)
    have ih' := ih (fun c hc => hx c (by simp [hc]))
    constructor
    · rw [List.cons_append, List.takeWhile_cons, if_pos hd, ih'.1]
    · rw [List.cons_append, List.dropWhile_cons, if_pos hd, ih'.2]

theorem matchTok_build {pre sp tok t : Str} (hsp : sp ≠ [])
    (hspc : ∀ c ∈ sp, pyIsSpace c = true) (htok : tok ≠ [])
    (htokc : ∀ c ∈ tok, isTokChar c = true)
    (ht : t = [] ∨ ∃ c ys, t = c :: ys ∧ isTokChar c = false) :
    matchTok pre (pre ++ (sp ++ (tok ++ t))) = some (tok, t) := by
  cases sp with
  | nil => exact absurd rfl hsp
  | cons d sp' =>
    unfold matchTok
    rw [stripPre_append]
    rw [List.cons_append]
    dsimp only
    rw [if_pos (hspc d (by simp))]
    rw [dropWhile_all_append (tok ++ t) (fun c hc => hspc c (by simp [hc]))]
    have hdw : List.dropWhile pyIsSpace (tok ++ t) = tok ++ t := by
      cases tok with
      | nil => exact absurd rfl htok
      | cons x w =>
        rw [List.cons_append, List.dropWhile_cons,
          if_neg (by rw [isTokChar_not_space (htokc x (by simp))]; simp)]
    rw [hdw]
    obtain ⟨h1, h2⟩ := takeWhile_all_append htokc ht
    rw [h1, h2, if_neg htok]

theorem matchTok_some_decomp {pre s0 tok r : Str}
    (h : matchTok pre s0 = some (tok, r)) :
    ∃ sp, s0 = pre ++ sp ++ tok ++ r ∧ sp ≠ [] := by
  unfold matchTok at h
  cases hst : stripPre pre s0 with
  | none => rw [hst] at h; exact absurd h (by simp)
  | some t =>
    rw [hst] at h
    cases t with
    | nil => simp at h
    | cons c t2 =>
      by_cases hc : pyIsSpace c
      · simp only [if_pos hc] at h
        by_cases htk : (t2.dropWhile pyIsSpace).takeWhile isTokChar = []
        · simp [htk] at h
        · simp only [if_neg htk] at h
          obtain ⟨h1, h2⟩ := Prod.mk.injEq _ _ _ _ ▸ Option.some.inj h
          refine ⟨c :: t2.takeWhile pyIsSpace, ?_, by simp⟩
          have hs0 : s0 = pre ++ c :: t2 := stripPre_some hst
          have ht2 : List.takeWhile pyIsSpace t2 ++ List.dropWhile pyIsSpace t2 = t2 :=
            List.takeWhile_append_dropWhile pyIsSpace t2
          have hu : (t2.dropWhile pyIsSpace).takeWhile isTokChar
              ++ (t2.dropWhile pyIsSpace).dropWhile isTokChar = t2.dropWhile pyIsSpace :=
            List.takeWhile_append_dropWhile isTokChar (t2.dropWhile pyIsSpace)
          calc s0 = pre ++ c :: t2 := hs0
            _ = pre ++ c :: (List.takeWhile pyIsSpace t2 ++ List.dropWhile pyIsSpace t2) := by
                rw [ht2]
            _ = pre ++ c :: (List.takeWhile pyIsSpace t2
                ++ ((t2.dropWhile pyIsSpace).takeWhile isTokChar
                    ++ (t2.dropWhile pyIsSpace).dropWhile isTokChar)) := by rw [hu]
            _ = pre ++ c :: (List.takeWhile pyIsSpace t2 ++ (tok ++ r)) := by rw [h1, h2]
            _ = pre ++ (c :: List.takeWhile pyIsSpace t2) ++ tok ++ r := by simp
      · simp [hc] at h

theorem tokAux_skip (pre : Str) :
    ∀ (s : Str) (n : Nat), tokAux pre n s = tokAux pre 0 (s.drop n) := by
  intro s
  induction s with
  | nil => intro n; cases n <;> simp [tokAux]
  | cons c s ih =>
    intro n
    cases n with
    | zero => rfl
    | succ m => simpa [tokAux] using ih m

theorem findTok_cons_match {pre : Str} {c : Char} {s tok r : Str}
    (h : matchTok pre (c :: s) = some (tok, r)) :
    findTok pre (c :: s) = tok :: findTok pre r := by
  obtain ⟨sp, hdec, hsp⟩ := matchTok_some_decomp h
  have hw : ∃ w, s = w ++ r := by
    have hdec' : c :: s = (pre ++ sp ++ tok) ++ r := by
      simpa [List.append_assoc] using hdec
    rcases hX : pre ++ sp ++ tok with _ | ⟨x, X⟩
    · exfalso
      exact hsp (List.append_eq_nil.mp (List.append_eq_nil.mp hX).1).2
    · rw [hX] at hdec'
      rw [List.cons_append] at hdec'
      exact ⟨X, (List.cons.inj hdec').2⟩
  obtain ⟨w, hwr⟩ := hw
  have hdrop : s.drop (s.length - r.length) = r := by
    have hlen : s.length - r.length = w.length := by
      rw [hwr]; simp
    rw [hlen, hwr, List.drop_left]
  have step : findTok pre (c :: s) = tok :: tokAux pre (s.length - r.length) s := by
    unfold findTok
    rw [tokAux, h]
  rw [step, tokAux_skip pre s (s.length - r.length), hdrop]
  rfl

theorem findTok_cons_nomatch {pre : Str} {c : Char} {s : Str}
    (h : matchTok pre (c :: s) = none) :
    findTok pre (c :: s) = findTok pre s := by
  unfold findTok
  rw [tokAux, h]

/-- No token match starts within the first `u.length` positions of
`u ++ rest`. -/
def tokFreeUpTo (pre : Str) : Str → Str → Bool
  | [], _ => true
  | c :: u, rest => (matchTok pre (c :: (u ++ rest))).isNone && tokFreeUpTo pre u rest

theorem tokFreeUpTo_head {pre : Str} {c : Char} {u rest : Str}
    (h : tokFreeUpTo pre (c :: u) rest = true) :
    matchTok pre (c :: (u ++ rest)) = none := by
  simp only [tokFreeUpTo, Bool.and_eq_true, Option.isNone_iff_eq_none] at h
  exact h.1

theorem tokFreeUpTo_tail {pre : Str} {c : Char} {u rest : Str}
    (h : tokFreeUpTo pre (c :: u) rest = true) :
    tokFreeUpTo pre u rest = true := by
  simp only [tokFreeUpTo, Bool.and_eq_true] at h
  exact h.2

/-- Each flag-token occurrence after a match-free stretch is captured, and
the scan continues behind it. -/
theorem findTok_rewrite {pre : Str} :
    ∀ {u sp tok t : Str}, sp ≠ [] → (∀ c ∈ sp, pyIsSpace c = true) →
      tok ≠ [] → (∀ c ∈ tok, isTokChar c = true) →
      (t = [] ∨ ∃ c ys, t = c :: ys ∧ isTokChar c = false) →
      tokFreeUpTo pre u (pre ++ (sp ++ (tok ++ t))) = true →
      findTok pre (u ++ (pre ++ (sp ++ (tok ++ t)))) = tok :: findTok pre t := by
  intro u
  induction u with
  | nil =>
    intro sp tok t hsp hspc htok htokc ht _
    simp only [List.nil_append]
    have hm : matchTok pre (pre ++ (sp ++ (tok ++ t))) = some (tok, t) :=
      matchTok_build hsp hspc htok htokc ht
    rcases hP : pre ++ (sp ++ (tok ++ t)) with _ | ⟨c, rest⟩
    · exfalso
      cases sp with
      | nil => exact hsp rfl
      | cons d sp' => simp at hP
    · rw [hP] at hm
      rw [findTok_cons_match hm]
  | cons c u' ih =>
    intro sp tok t hsp hspc htok htokc ht hu
    rw [List.cons_append, findTok_cons_nomatch (tokFreeUpTo_head hu),
      ih hsp hspc htok htokc ht (tokFreeUpTo_tail hu)]

/-! ### Support lemmas for sectioning -/

theorem matchSec_some_shape {X t r : Str} (h : matchSec X = some (t, r)) :
    ∃ rest, X = '#' :: '#' :: '#' :: ' ' :: rest := by
  unfold matchSec at h
  cases hst : stripPre ['#', '#', '#', ' '] X with
  | none => rw [hst] at h; exact absurd h (by simp)
  | some u =>
    exact ⟨u, stripPre_some hst⟩

/-- Build a `### (.+)` match: literal header, nonempty title without
newlines, rest empty or starting with a newline. -/
theorem matchSec_build {t r : Str} (ht : t ≠ []) (htn : ∀ c ∈ t, ¬ c = '\n')
    (hr : r = [] ∨ ∃ ys, r = '\n' :: ys) :
    matchSec ('#' :: '#' :: '#' :: ' ' :: (t ++ r)) = some (t, r) := by
  unfold matchSec
  rw [show stripPre ['#', '#', '#', ' '] ('#' :: '#' :: '#' :: ' ' :: (t ++ r))
      = some (t ++ r) from stripPre_append ['#', '#', '#', ' '] (t ++ r)]
  dsimp only
  have hcond : r = [] ∨ ∃ c ys, r = c :: ys ∧ (!(c == '\n')) = false := by
    rcases hr with rfl | ⟨ys, rfl⟩
    · exact Or.inl rfl
    · exact Or.inr ⟨'\n', ys, rfl, by simp⟩
  obtain ⟨h1, h2⟩ := takeWhile_all_append
    (p := fun c => !(c == '\n')) (fun c hc => by simpa using htn c hc) hcond
  rw [h1, h2, if_neg ht]

/-- No `### (.+)` match starts within the first `u.length` positions of
`u ++ rest`. -/
def secFreeUpTo : Str → Str → Bool
  | [], _ => true
  | c :: u, rest => (matchSec (c :: (u ++ rest))).isNone && secFreeUpTo u rest

/-- No `### (.+)` match starts anywhere in `s`. -/
def noSecB : Str → Bool
  | [] => true
  | c :: s => (matchSec (c :: s)).isNone && noSecB s

theorem findSec_append_free {t r : Str} :
    ∀ {u X : Str}, secFreeUpTo u X = true → matchSec X = some (t, r) →
      findSec (u ++ X) = some (u, t, r) := by
  intro u
  induction u with
  | nil =>
    intro X _ hm
    obtain ⟨rest, hshape⟩ := matchSec_some_shape hm
    subst hshape
    simp only [List.nil_append]
    unfold findSec
    rw [hm]
  | cons c u' ih =>
    intro X hu hm
    have hhead : matchSec (c :: (u' ++ X)) = none := by
      simp only [secFreeUpTo, Bool.and_eq_true, Option.isNone_iff_eq_none] at hu
      exact hu.1
    have htail : secFreeUpTo u' X = true := by
      simp only [secFreeUpTo, Bool.and_eq_true] at hu
      exact hu.2
    rw [List.cons_append]
    unfold findSec
    rw [hhead, ih htail hm]
    rfl

theorem findSec_none_of_noSecB : ∀ {s : Str}, noSecB s = true → findSec s = none := by
  intro s
  induction s with
  | nil => intro _; rfl
  | cons c s' ih =>
    intro hs
    have hhead : matchSec (c :: s') = none := by
      simp only [noSecB, Bool.and_eq_true, Option.isNone_iff_eq_none] at hs
      exact hs.1
    have htail : noSecB s' = true := by
      simp only [noSecB, Bool.and_eq_true] at hs
      exact hs.2
    unfold findSec
    rw [hhead, ih htail]
    rfl

theorem sectAux_none {t r : Str} (h : findSec r = none) :
    ∀ fuel, sectAux fuel t r = [(t, r)] := by
  intro fuel
  cases fuel with
  | zero => rfl
  | succ f =>
    unfold sectAux
    rw [h]

/-- The text of a run of sections: each `### ` heading with its title,
then its body, concatenated in order. -/
def secJoin : List (Str × Str) → Str
  | [] => []
  | (t, b) :: rest => '#' :: '#' :: '#' :: ' ' :: (t ++ (b ++ secJoin rest))

theorem secJoin_cons (t b : Str) (rest : List (Str × Str)) :
    secJoin ((t, b) :: rest)
      = '#' :: '#' :: '#' :: ' ' :: (t ++ (b ++ secJoin rest)) := rfl

/-- Empty, or starting with a newline: what may follow a maximal greedy
`(.+)` title capture. -/
def nlHead (s : Str) : Bool := s.isEmpty || (s.head? == some '\n')

/-- Well-formed run of sections headed by the stretch `b`: no `### (.+)`
match starts inside `b` before the next heading, each title is a nonempty
newline-free run ended by a newline or the end of file (so the greedy
capture stops exactly where listed), and no match starts in the final
body. -/
def chainOk : Str → List (Str × Str) → Bool
  | b, [] => noSecB b
  | b, (t2, b2) :: rest =>
    secFreeUpTo b (secJoin ((t2, b2) :: rest)) &&
    (!t2.isEmpty) && t2.all (fun c => !(c == '\n')) &&
    nlHead (b2 ++ secJoin rest) &&
    chainOk b2 rest

theorem nlHead_cases {s : Str} (h : nlHead s = true) :
    s = [] ∨ ∃ ys, s = '\n' :: ys := by
  cases s with
  | nil => exact Or.inl rfl
  | cons c s' =>
    refine Or.inr ⟨s', ?_⟩
    simp only [nlHead, List.isEmpty_cons, List.head?_cons, Bool.false_or] at h
    have hc : c = '\n' := by simpa using h
    rw [hc]

theorem title_ne_nil {t : Str} (h : (!t.isEmpty) = true) : t ≠ [] := by
  cases t with
  | nil => simp at h
  | cons c s => exact fun hc => List.noConfusion hc

theorem title_no_newline {t : Str}
    (h : (t.all fun c => !(c == '\n')) = true) : ∀ c ∈ t, ¬ c = '\n' := by
  intro c hc
  have h2 := List.all_eq_true.mp h c hc
  simpa using h2

theorem noSecB_of_findSec_none : ∀ {s : Str}, findSec s = none → noSecB s = true := by
  intro s
  induction s with
  | nil => intro _; rfl
  | cons c s' ih =>
    intro h
    have hm : matchSec (c :: s') = none := by
      cases hm : matchSec (c :: s') with
      | none => rfl
      | some p =>
        exfalso
        obtain ⟨t, r⟩ := p
        have hsome : findSec (c :: s') = some ([], t, r) := by
          unfold findSec
          rw [hm]
        rw [h] at hsome
        exact Option.noConfusion hsome
    have h2 : findSec s' = none := by
      cases hfs : findSec s' with
      | none => rfl
      | some p =>
        exfalso
        have hsome : findSec (c :: s') = some (c :: p.1, p.2.1, p.2.2) := by
          unfold findSec
          rw [hm, hfs]
          rfl
        rw [h] at hsome
        exact Option.noConfusion hsome
    unfold noSecB
    rw [hm, ih h2]
    rfl

theorem sectAux_ne_nil : ∀ (fuel : Nat) (t r : Str), sectAux fuel t r ≠ [] := by
  intro fuel t r
  cases fuel with
  | zero => exact fun hc => List.noConfusion hc
  | succ f =>
    unfold sectAux
    cases hf : findSec r with
    | none =>
      exact fun hc => List.noConfusion hc
    | some p =>
      obtain ⟨b, t2, r2⟩ := p
      dsimp only
      exact fun hc => List.noConfusion hc

/-- The section loop on a well-formed run emits exactly the listed
sections, each with its listed body. -/
theorem sectAux_chain : ∀ (secs : List (Str × Str)) (t b : Str) (fuel : Nat),
    chainOk b secs = true → (b ++ secJoin secs).length ≤ fuel →
    sectAux fuel t (b ++ secJoin secs) = (t, b) :: secs := by
  intro secs
  induction secs with
  | nil =>
    intro t b fuel hok hfuel
    have hb : b ++ secJoin [] = b := by
      show b ++ [] = b
      exact List.append_nil b
    rw [hb]
    exact sectAux_none (findSec_none_of_noSecB hok) fuel
  | cons p rest ih =>
    obtain ⟨t2, b2⟩ := p
    intro t b fuel hok hfuel
    simp only [chainOk, Bool.and_eq_true] at hok
    obtain ⟨⟨⟨⟨hfree, ht2⟩, ht2n⟩, hnl⟩, hchain⟩ := hok
    have hm2 : matchSec (secJoin ((t2, b2) :: rest))
        = some (t2, b2 ++ secJoin rest) := by
      rw [secJoin_cons]
      exact matchSec_build (title_ne_nil ht2) (title_no_newline ht2n) (nlHead_cases hnl)
    have hfind : findSec (b ++ secJoin ((t2, b2) :: rest))
        = some (b, t2, b2 ++ secJoin rest) := findSec_append_free hfree hm2
    have hge : (b2 ++ secJoin rest).length + 5
        ≤ (b ++ secJoin ((t2, b2) :: rest)).length := by
      rw [secJoin_cons]
      simp only [List.length_append, List.length_cons]
      have h1 : 1 ≤ t2.length := by
        cases t2 with
        | nil => exact absurd rfl (title_ne_nil ht2)
        | cons _ _ => simp
      omega
    cases fuel with
    | zero => omega
    | succ f =>
      unfold sectAux
      rw [hfind]
      dsimp only
      congr 1
      exact ih t2 b2 f hchain (by omega)

/-- For arbitrary pairs in an enumeration, mapping a function of the
element alone forgets the indices. -/
theorem enum_map_val {α β : Type _} (l : List α) (g : α → β) :
    l.enum.map (fun p => g p.2) = l.map g := by
  have h1 : (fun p : Nat × α => g p.2) = g ∘ Prod.snd := rfl
  rw [h1, ← List.map_map, List.enum_map_snd]

/-! ### Support lemma for the shell-fence findall -/

theorem findBashBlocks_empty : ∀ {block : Str}, ¬ fenceBash <:+: block →
    findBashBlocks block = [] := by
  intro block
  induction block with
  | nil => intro _; rfl
  | cons c s ih =>
    intro h
    have hm : matchBash (c :: s) = none := by
      unfold matchBash
      cases hst : stripPre fenceBash (c :: s) with
      | none => rfl
      | some t =>
        exfalso
        exact h ⟨[], t, by simpa using (stripPre_some hst).symm⟩
    unfold findBashBlocks
    rw [bashAux, hm]
    have hs : ¬ fenceBash <:+: s := by
      intro ⟨x, y, hxy⟩
      exact h ⟨c :: x, y, by simp [← hxy]⟩
    exact ih hs

/-! ### Guard-failure support (claim C3) -/

theorem fixNamespacesField_guard {a : Str} {ns : List Str}
    (hg : 1 < ns.length ∨ ∃ x, ns = [x] ∧ x ∉ NAMESPACES ∧ x ≠ []) :
    fixNamespacesField a ns = ns := by
  rcases ns with _ | ⟨x, _ | ⟨y, rest⟩⟩
  · rfl
  · rcases hg with h | ⟨z, hz, hz1, hz2⟩
    · simp at h
    · have hxz : x = z := by
        simpa using hz
      subst hxz
      have hx : x ∉ NAMESPACES ++ [([] : Str)] := by
        intro hmem
        rcases List.mem_append.mp hmem with h | h
        · exact hz1 h
        · exact hz2 (by simpa using h)
      simp only [fixNamespacesField, if_neg hx]
  · rfl

/-- Decidable form of "no marker of a non-assigned namespace survives the
pass in the description". -/
def descMarkersClear (n : Nat) (q : Question) : Bool :=
  match (fixCore n q).description with
  | none => true
  | some d => NAMESPACES.all fun o => decide (o = get_namespace n) || noMarkerB o d

/-! ## Claims about the Normalizer -/

/-- Concrete record used by the C1 witness. -/
def qC1 : Question :=
  { infrastructure := some ⟨some [[]], [("resources".toList, "pods".toList)]⟩,
    description := some "Create a pod in ||saturn||".toList,
    solution := some ⟨some ["kubectl run x -n venus".toList], []⟩,
    validations := some [⟨some "kubectl get pods -n venus".toList, []⟩],
    extra := [("points".toList, "6".toList)] }

/-- C1: for every file whose filename carries a run of digits of value `n`
and whose `infrastructure.namespaces` is a one-element array holding the
empty string or a recognized planetary name, one Normalizer pass succeeds
and replaces the array with `[NAMESPACES[n mod 8]]`. -/
theorem C1_namespace_assignment (fname : Str) (n : Nat) (q : Question)
    (infra : Infrastructure) (x : Str)
    (h1 : extractNum fname = some n)
    (h2 : q.infrastructure = some infra)
    (h3 : infra.namespaces = some [x])
    (h4 : x ∈ NAMESPACES ∨ x = []) :
    fix_question_file fname q = some (fixCore n q) ∧
    nsOf (fixCore n q) = some [NAMESPACES.getD (n % 8) []] := by
  constructor
  · unfold fix_question_file
    rw [h1]
    rfl
  · have hmem : x ∈ NAMESPACES ++ [([] : Str)] := by
      rcases h4 with h | rfl
      · exact List.mem_append.mpr (Or.inl h)
      · exact List.mem_append.mpr (Or.inr (by simp))
    unfold nsOf fixCore
    rw [h2]
    simp only [Option.map_some', Option.bind_eq_bind]
    obtain ⟨nso, iex⟩ := infra
    have hnso : nso = some [x] := h3
    subst hnso
    simp [fixNamespacesField, hmem, get_namespace]

theorem C1_namespace_assignment_witness :
    fix_question_file "q16.json".toList qC1 = some (fixCore 16 qC1) ∧
    nsOf (fixCore 16 qC1) = some [NAMESPACES.getD (16 % 8) []] :=
  C1_namespace_assignment "q16.json".toList 16 qC1 ⟨some [[]],
    [("resources".toList, "pods".toList)]⟩ [] (by decide) rfl rfl (by decide)

/-- Concrete record used by the C2 counterexample: its description holds
overlapping markers. -/
def qC2 : Question :=
  { infrastructure := some ⟨some [[]], []⟩,
    description := some "Use ||venus||venus|| here".toList,
    solution := some ⟨some ["kubectl get po -n venus".toList], []⟩,
    validations := some [⟨some "kubectl get po --namespace venus".toList, []⟩],
    extra := [] }

/-- C2 counterexample: `fixCore 0 qC2` is the output of one successful pass
under `q0.json`, yet a second pass changes it again — the overlapping
markers `||venus||venus||` became `||saturn||venus||`, and the surviving
`||venus||` is rewritten by the second pass. -/
theorem C2_counterexample :
    fix_question_file "q0.json".toList qC2 = some (fixCore 0 qC2) ∧
    fixCore 0 (fixCore 0 qC2) ≠ fixCore 0 qC2 := by
  constructor
  · decide
  · decide

/-- Concrete record used by the C2 witness (no overlapping markers). -/
def qC2w : Question :=
  { infrastructure := some ⟨some ["venus".toList], []⟩,
    description := some "Work in ||venus|| please".toList,
    solution := some ⟨some ["kubectl get po -n venus".toList], []⟩,
    validations := some [⟨some "kubectl get po --namespace pluto".toList, []⟩],
    extra := [] }

/-- C2 (amended): a second Normalizer pass over the output of a successful
pass, under the same filename, is a no-op provided no `||other||` marker of
a non-assigned namespace survives the first pass in the description.  The
guard re-assigns the same namespace and no command flag of the 7 other
namespaces remains (this part is unconditional); markers can survive only
when the input's markers overlap, sharing `||` delimiters, as the
counterexample shows. -/
theorem C2_idempotence_amended (fname : Str) (n : Nat) (q : Question)
    (h1 : extractNum fname = some n)
    (hd : descMarkersClear n q = true) :
    fix_question_file fname (fixCore n q) = some (fixCore n q) := by
  unfold fix_question_file
  rw [h1]
  simp only [Option.map_some']
  congr 1
  apply fixCore_idem
  intro d hdq o ho hoa
  have hfd : (fixCore n q).description = some (fix_description (get_namespace n) d) := by
    simp [fixCore, hdq]
  unfold descMarkersClear at hd
  rw [hfd] at hd
  have h2 := List.all_eq_true.mp hd o ho
  simpa [hoa] using h2

theorem C2_idempotence_amended_witness :
    fix_question_file "q3.json".toList (fixCore 3 qC2w) = some (fixCore 3 qC2w) :=
  C2_idempotence_amended "q3.json".toList 3 qC2w (by decide) (by decide)

/-- Concrete record used by claim C3: an unrecognized single namespace. -/
def qC3 : Question :=
  { infrastructure := some ⟨some ["custom".toList], []⟩,
    description := some "Use ||venus|| here".toList,
    solution := some ⟨some ["kubectl get po -n venus".toList], []⟩,
    validations := some [⟨some "kubectl get po --namespace venus".toList, []⟩],
    extra := [] }

/-- C3 counterexample: a record whose single namespace entry `custom` is
not recognized is still rewritten by the pass — the record as a whole is
not left untouched (its description, steps and validation command change). -/
theorem C3_counterexample :
    ("custom".toList ∉ NAMESPACES ∧ "custom".toList ≠ ([] : Str)) ∧
    fix_question_file "q0.json".toList qC3 = some (fixCore 0 qC3) ∧
    fixCore 0 qC3 ≠ qC3 := by
  refine ⟨by decide, by decide, by decide⟩

/-- C3 (amended): for a file whose namespaces array has more than one entry
or whose single entry is neither empty nor recognized, the pass leaves the
whole `infrastructure` object — in particular the namespaces field —
unchanged; the description, solution steps and validation commands are
still rewritten (as the counterexample exhibits). -/
theorem C3_guard_amended (n : Nat) (q : Question) (infra : Infrastructure)
    (ns : List Str)
    (h2 : q.infrastructure = some infra) (h3 : infra.namespaces = some ns)
    (hg : 1 < ns.length ∨ ∃ x, ns = [x] ∧ x ∉ NAMESPACES ∧ x ≠ []) :
    (fixCore n q).infrastructure = q.infrastructure ∧
    nsOf (fixCore n q) = some ns := by
  have hfix : fixNamespacesField (get_namespace n) ns = ns := fixNamespacesField_guard hg
  obtain ⟨nso, iex⟩ := infra
  have hnso : nso = some ns := h3
  subst hnso
  constructor
  · simp [fixCore, h2, hfix]
  · simp [nsOf, fixCore, h2, hfix]

theorem C3_guard_amended_witness :
    (fixCore 7 qC3).infrastructure = qC3.infrastructure ∧
    nsOf (fixCore 7 qC3) = some ["custom".toList] :=
  C3_guard_amended 7 qC3 ⟨some ["custom".toList], []⟩ ["custom".toList] rfl rfl
    (Or.inr ⟨"custom".toList, rfl, by decide, by decide⟩)

/-- Concrete record used by claim C4: `q16.json` with namespaces `[""]`. -/
def qC4 : Question :=
  { infrastructure := some ⟨some [[]], []⟩,
    description := none, solution := none, validations := none, extra := [] }

/-- C4 counterexample: `q16.json` with `namespaces = [""]` does not yield
`["uranus"]` after the pass. -/
theorem C4_counterexample :
    fix_question_file "q16.json".toList qC4 = some (fixCore 16 qC4) ∧
    nsOf (fixCore 16 qC4) ≠ some ["uranus".toList] := by
  constructor
  · decide
  · decide

/-- C4 (amended): 16 mod 8 = 0 indexes the first entry of the fixed list,
which is `saturn`: `q16.json` with `namespaces = [""]` yields `["saturn"]`. -/
theorem C4_example_amended :
    fix_question_file "q16.json".toList qC4 = some (fixCore 16 qC4) ∧
    nsOf (fixCore 16 qC4) = some ["saturn".toList] ∧
    NAMESPACES.getD (16 % 8) [] = "saturn".toList := by
  refine ⟨by decide, by decide, by decide⟩

/-- C5: the command rewriting — every string of `solution.steps` and every
`validations[*].command` goes through the same per-string transformation;
each word-boundary-terminated `-n <other>` / `--namespace <other>`
occurrence (after a match-free stretch) is replaced by the assigned
namespace with the scan continuing behind it, and no such occurrence
survives the pass. -/
theorem C5_command_rewriting (n : Nat) (q : Question) (sol : Solution)
    (L : List Str) (V : List Validation)
    (hsol : q.solution = some sol) (hsteps : sol.steps = some L)
    (hval : q.validations = some V) :
    ((fixCore n q).solution
        = some { sol with steps := some (L.map (fixStepStr (get_namespace n))) }) ∧
    ((fixCore n q).validations
        = some (V.map fun v =>
            { v with command := v.command.map (fixValidationCommand (get_namespace n)) })) ∧
    (∀ s, fixValidationCommand (get_namespace n) s = fixStepStr (get_namespace n) s) ∧
    (∀ old ∈ NAMESPACES, old ≠ get_namespace n → ∀ s,
      noFlagB dashN old (fixStepStr (get_namespace n) s) = true ∧
      noFlagB dashNS old (fixStepStr (get_namespace n) s) = true) ∧
    (∀ pre old, (pre = dashN ∨ pre = dashNS) → old ∈ NAMESPACES →
      ∀ u sp t, sp ≠ [] → (∀ c ∈ sp, pyIsSpace c = true) → bdry t = true →
      flagFreeUpTo pre old u (pre ++ (sp ++ (old ++ t))) = true →
      subFlag pre old (get_namespace n) (u ++ (pre ++ (sp ++ (old ++ t))))
        = u ++ ((pre ++ ' ' :: get_namespace n) ++ subFlag pre old (get_namespace n) t)) := by
  refine ⟨?_, ?_, fun s => rfl, ?_, ?_⟩
  · obtain ⟨st, sex⟩ := sol
    have hst : st = some L := hsteps
    subst hst
    simp [fixCore, hsol]
  · simp [fixCore, hval]
  · intro old ho hoa s
    exact fixStepStr_clears (get_namespace_mem n) ho hoa s
  · intro pre old _ ho u sp t hsp hspc hb hfree
    exact subFlag_rewrite ho hsp hspc hb hfree

/-- Concrete record used by the C5 witness. -/
def qC5 : Question :=
  { infrastructure := none, description := none,
    solution := some ⟨some ["kubectl -n venus get po".toList], []⟩,
    validations := some [⟨some "kubectl --namespace venus get po".toList, []⟩],
    extra := [] }

theorem C5_command_rewriting_witness :
    qC5.solution = some ⟨some ["kubectl -n venus get po".toList], []⟩ ∧
    ((fixCore 2 qC5).solution
      = some ⟨some (["kubectl -n venus get po".toList].map (fixStepStr (get_namespace 2))),
          []⟩) := by
  refine ⟨rfl, ?_⟩
  exact (C5_command_rewriting 2 qC5 ⟨some ["kubectl -n venus get po".toList], []⟩
    ["kubectl -n venus get po".toList]
    [⟨some "kubectl --namespace venus get po".toList, []⟩] rfl rfl rfl).1

/-- Concrete record used by the C6 counterexample. -/
def qC6 : Question :=
  { infrastructure := some ⟨some [[]], []⟩,
    description := some "||pluto||pluto||".toList,
    solution := none, validations := none, extra := [] }

/-- C6 counterexample: with assigned namespace `saturn`, the overlapping
markers `||pluto||pluto||` are rewritten to `||saturn||pluto||`, so a
`||pluto||` marker of a non-assigned namespace remains after the pass. -/
theorem C6_counterexample :
    (fixCore 0 qC6).description = some "||saturn||pluto||".toList ∧
    noMarkerB "pluto".toList "||saturn||pluto||".toList = false ∧
    "pluto".toList ∈ NAMESPACES ∧ "pluto".toList ≠ get_namespace 0 := by
  refine ⟨by decide, by decide, by decide, by decide⟩

/-- Concrete record used by the C6 witness: two `||venus||` markers and a
`||pluto||` marker, assigned namespace `saturn`. -/
def qC6w : Question :=
  { infrastructure := some ⟨some [[]], []⟩,
    description := some "Deploy to ||venus|| then ||venus|| and ||pluto|| done".toList,
    solution := none, validations := none, extra := [] }

/-- Decomposition of the C6 witness description: gaps paired with the
namespaces of the markers that follow them, plus a trailing stretch. -/
def piecesC6w : List (Str × Str) :=
  [("Deploy to ".toList, "venus".toList), (" then ".toList, "venus".toList),
   (" and ".toList, "pluto".toList)]

def tailC6w : Str := " done".toList

/-- C6 (amended): for every description decomposed into marker-free gaps,
any number of complete `||name||` markers of recognized namespaces (repeats
and distinct namespaces alike), and a marker-free tail — clean in the sense
that at each pass of the namespace loop no occurrence of the scanned
marker starts inside a gap, inside a marker of another namespace, or in
the tail — every `||other||` marker met by the left-to-right
non-overlapping scan is rewritten to `||assigned||`, and markers of the
assigned namespace itself are left as-is: the result is the same
decomposition with every marker reading `||assigned||`. Overlapping
markers sharing `||` delimiters fall outside such decompositions and can
leave a `||other||` occurrence behind, as the counterexample shows, so "no
such marker remains" fails in general. -/
theorem C6_description_amended (n : Nat) (q : Question)
    (pieces : List (Str × Str)) (tail : Str)
    (hq : q.description = some (mixJoin pieces tail))
    (hlabels : ∀ p ∈ pieces, p.2 ∈ NAMESPACES)
    (hclean : cleanAll (get_namespace n) NAMESPACES pieces tail = true) :
    (fixCore n q).description
      = some (mixJoin (pieces.map fun p => (p.1, get_namespace n)) tail) := by
  have hfd : fix_description (get_namespace n) (mixJoin pieces tail)
      = mixJoin (pieces.map fun p => (p.1, get_namespace n)) tail := by
    rw [fix_description_eq_markFold,
      markFold_mixJoin NAMESPACES pieces tail hclean,
      relabelAll_to_a NAMESPACES pieces fun p hp => Or.inr (hlabels p hp)]
  simp [fixCore, hq, hfd]

theorem C6_description_amended_witness :
    (fixCore 0 qC6w).description
      = some (mixJoin (piecesC6w.map fun p => (p.1, get_namespace 0)) tailC6w) :=
  C6_description_amended 0 qC6w piecesC6w tailC6w (by decide) (by decide) (by decide)

/-- C9: exceptions while reading/parsing or writing a file are caught
inside `fix_question_file` (which returns `False`), as is a digitless
filename; `main` processes every job and reports total, updated, and
failed = total − updated. -/
theorem C9_failure_handling (jobs : List FileJob) :
    (mainCounts jobs).1 = jobs.length ∧
    (mainCounts jobs).2.1 = (jobs.filter fun j => (fix_question_file_run j).1).length ∧
    (mainCounts jobs).2.2 = (mainCounts jobs).1 - (mainCounts jobs).2.1 ∧
    (∀ (j : FileJob) (e : Str), j.readParse = .error e →
      fix_question_file_run j = (false, none)) ∧
    (∀ (j : FileJob) (q : Question) (e : Str), j.readParse = .ok q →
      j.writeOut = .error e → (fix_question_file_run j).1 = false) ∧
    (∀ (j : FileJob) (q : Question), j.readParse = .ok q → extractNum j.name = none →
      fix_question_file_run j = (false, none)) := by
  refine ⟨rfl, rfl, rfl, ?_, ?_, ?_⟩
  · intro j e he
    unfold fix_question_file_run
    rw [he]
  · intro j q e hq he
    unfold fix_question_file_run
    rw [hq]
    cases hnum : extractNum j.name with
    | none => rfl
    | some k => rw [he]
  · intro j q hq hnum
    unfold fix_question_file_run
    rw [hq, hnum]

/-- Concrete record used by the C9 witness jobs. -/
def qC9 : Question :=
  { infrastructure := some ⟨some ["venus".toList], []⟩,
    description := none, solution := none, validations := none, extra := [] }

/-- Concrete jobs used by the C9 witness: a parse failure, a success, a
digitless filename, and a write failure. -/
def jobsC9 : List FileJob :=
  [⟨"q1.json".toList, .error "invalid json".toList, .ok ()⟩,
   ⟨"q2.json".toList, .ok qC9, .ok ()⟩,
   ⟨"notes.json".toList, .ok qC9, .ok ()⟩,
   ⟨"q4.json".toList, .ok qC9, .error "disk full".toList⟩]

theorem C9_failure_handling_witness :
    (mainCounts jobsC9).1 = jobsC9.length :=
  (C9_failure_handling jobsC9).1

/-! ## Claims about the Extractor -/

/-- Concrete body used by the C7 counterexample: both detection patterns
match, with different tokens. -/
def bodyC7 : Str :=
  "kubectl get po -n payments; kubectl describe namespace shipping".toList

/-- C7 counterexample: the `namespace <token>` pattern matches `shipping`
in the body, yet `shipping` is not in the result — the second pattern is a
fallback used only when the first finds nothing, not a union. -/
theorem C7_counterexample :
    findTok nsWord bodyC7 = ["shipping".toList] ∧
    detect_namespace bodyC7 = ["payments".toList] ∧
    "shipping".toList ∉ detect_namespace bodyC7 := by
  refine ⟨by decide, by decide, by decide⟩

/-- C7 (amended): `detect_namespace` returns the deduplicated tokens of the
`-n <token>` pattern when there are any; only when that pattern finds
nothing, the deduplicated tokens of the `namespace <token>` pattern; and
exactly `["default"]` when both find nothing.  Each pattern occurrence
after a match-free stretch contributes its token; a body containing only
`-n payments` yields `["payments"]`. -/
theorem C7_detect_amended (block : Str) :
    (findTok dashN block ≠ [] →
      ∀ x, x ∈ detect_namespace block ↔ x ∈ findTok dashN block) ∧
    (findTok dashN block = [] → findTok nsWord block ≠ [] →
      ∀ x, x ∈ detect_namespace block ↔ x ∈ findTok nsWord block) ∧
    (findTok dashN block = [] → findTok nsWord block = [] →
      detect_namespace block = [defaultNs]) ∧
    (∀ pre u sp tok t, sp ≠ [] → (∀ c ∈ sp, pyIsSpace c = true) →
      tok ≠ [] → (∀ c ∈ tok, isTokChar c = true) →
      (t = [] ∨ ∃ c ys, t = c :: ys ∧ isTokChar c = false) →
      tokFreeUpTo pre u (pre ++ (sp ++ (tok ++ t))) = true →
      findTok pre (u ++ (pre ++ (sp ++ (tok ++ t)))) = tok :: findTok pre t) ∧
    detect_namespace ('-' :: 'n' :: ' ' :: "payments".toList) = ["payments".toList] := by
  refine ⟨?_, ?_, ?_, ?_, by decide⟩
  · intro hne x
    simp only [detect_namespace, if_neg hne]
    rw [if_neg (fun h => hne ((List.dedup_eq_nil _).mp h))]
    exact List.mem_dedup
  · intro h1 hne x
    simp only [detect_namespace, if_pos h1]
    rw [if_neg (fun h => hne ((List.dedup_eq_nil _).mp h))]
    exact List.mem_dedup
  · intro h1 h2
    simp only [detect_namespace, if_pos h1, h2]
    rfl
  · intro pre u sp tok t hsp hspc htok htokc ht hfree
    exact findTok_rewrite hsp hspc htok htokc ht hfree

theorem C7_detect_amended_witness :
    detect_namespace ('-' :: 'n' :: ' ' :: "payments".toList) = ["payments".toList] :=
  (C7_detect_amended []).2.2.2.2

/-- C8 counterexample: the unanchored regex `### (.+)` also matches inside
a level-4 heading (`#### X`) and in the middle of a line, so such text does
start sections, against the claim. -/
theorem C8_counterexample :
    sectize "#### X\nbody".toList = [("X".toList, "\nbody".toList)] ∧
    sectize "#### X\nbody".toList ≠ [] ∧
    sectize "foo ### bar\nrest".toList = [("bar".toList, "\nrest".toList)] := by
  refine ⟨by decide, by decide, by decide⟩

/-- C8 (amended): the emitted records correspond one-to-one to the
occurrences of `### ` followed by a nonempty line remainder — anywhere in
the text, including inside level-4 headings and mid-line.  For every text
decomposed into a match-free leading stretch and any run of sections
(nonempty newline-free title ended by a newline or the end of file; body
running to the next occurrence, the last body possibly empty; no match
starting inside the stretches between occurrences), the Extractor emits
exactly those sections in order: one record per section with sequential
ids and the trimmed titles.  And for every text whatsoever, no record is
emitted exactly when no such occurrence exists in it. -/
theorem C8_sections_amended (u0 : Str) (secs : List (Str × Str))
    (fname : Str) (i0 : Nat) (hok : chainOk u0 secs = true) :
    sectize (u0 ++ secJoin secs) = secs ∧
    processFile (u0 ++ secJoin secs) fname i0
      = secs.enum.map (fun p => create_json_obj p.2.1 p.2.2 fname (i0 + p.1)) ∧
    (processFile (u0 ++ secJoin secs) fname i0).map ERecord.title
      = secs.map (fun s => pyStrip s.1) ∧
    (∀ text : Str, sectize text = [] ↔ noSecB text = true) := by
  have hiff : ∀ text : Str, sectize text = [] ↔ noSecB text = true := by
    intro text
    constructor
    · intro h
      apply noSecB_of_findSec_none
      cases hf : findSec text with
      | none => rfl
      | some p =>
        exfalso
        obtain ⟨u, t, r⟩ := p
        unfold sectize at h
        rw [hf] at h
        dsimp only at h
        exact sectAux_ne_nil r.length t r h
    · intro h
      unfold sectize
      rw [findSec_none_of_noSecB h]
  have hsec : sectize (u0 ++ secJoin secs) = secs := by
    cases secs with
    | nil =>
      have hb : u0 ++ secJoin [] = u0 := by
        show u0 ++ [] = u0
        exact List.append_nil u0
      rw [hb]
      exact (hiff u0).mpr hok
    | cons p rest =>
      obtain ⟨t1, b1⟩ := p
      simp only [chainOk, Bool.and_eq_true] at hok
      obtain ⟨⟨⟨⟨hfree, ht1⟩, ht1n⟩, hnl⟩, hchain⟩ := hok
      have hm1 : matchSec (secJoin ((t1, b1) :: rest))
          = some (t1, b1 ++ secJoin rest) := by
        rw [secJoin_cons]
        exact matchSec_build (title_ne_nil ht1) (title_no_newline ht1n) (nlHead_cases hnl)
      have hfind : findSec (u0 ++ secJoin ((t1, b1) :: rest))
          = some (u0, t1, b1 ++ secJoin rest) := findSec_append_free hfree hm1
      unfold sectize
      rw [hfind]
      dsimp only
      exact sectAux_chain rest t1 b1 _ hchain le_rfl
  refine ⟨hsec, ?_, ?_, hiff⟩
  · unfold processFile
    rw [hsec]
  · unfold processFile
    rw [hsec, List.map_map]
    have hfun : (ERecord.title ∘ fun p : Nat × (Str × Str) =>
          create_json_obj p.2.1 p.2.2 fname (i0 + p.1))
        = fun p : Nat × (Str × Str) => pyStrip p.2.1 := by
      funext p
      rfl
    rw [hfun]
    exact enum_map_val secs fun s => pyStrip s.1

theorem C8_sections_amended_witness :
    sectize ("intro\n#".toList ++ secJoin
        [("A".toList, "\nbody1\n".toList), ("B".toList, "\nbody2\n".toList),
         ("C".toList, [])])
      = [("A".toList, "\nbody1\n".toList), ("B".toList, "\nbody2\n".toList),
         ("C".toList, [])] :=
  (C8_sections_amended "intro\n#".toList
    [("A".toList, "\nbody1\n".toList), ("B".toList, "\nbody2\n".toList),
     ("C".toList, [])]
    "x.md".toList 101 (by decide)).1

/-- Concrete body used by the C10 counterexample: the fence tag is
`bashful`, which merely begins with `bash`. -/
def blockC10 : Str := fenceBash ++ ("ful\necho hi\n".toList ++ fenceClose)

/-- C10 counterexample: a fenced block whose tag is `bashful` — another
tag, not `bash` — is still captured, and the extracted steps are not
empty. -/
theorem C10_counterexample :
    extract_kubectl_steps blockC10 = ["ful".toList, "echo hi".toList] ∧
    extract_kubectl_steps blockC10 ≠ [] := by
  refine ⟨by decide, by decide⟩

/-- Concrete body used by the C10 witness: a `sh`-tagged fence. -/
def blockC10w : Str := fenceClose ++ ("sh\necho hi\n".toList ++ fenceClose)

/-- C10 (amended): only fenced blocks whose opening begins with the seven
characters of the backtick fence plus `bash` are captured — the tag `bash`
or any tag extending it (e.g. `bashful`), per the counterexample; a section
body containing no such opening (e.g. only `sh`-, `shell`-, `yaml`- or
untagged fences) yields no steps, and the emitted record's
`solution.steps` is empty. -/
theorem C10_bash_amended (block title fname : Str) (objId : Nat)
    (h : ¬ fenceBash <:+: block) :
    extract_kubectl_steps block = [] ∧
    (create_json_obj title block fname objId).solutionSteps = [] := by
  have hb : findBashBlocks block = [] := findBashBlocks_empty h
  constructor
  · unfold extract_kubectl_steps
    rw [hb]
    rfl
  · simp [create_json_obj, extract_kubectl_steps, hb]

theorem C10_bash_amended_witness :
    extract_kubectl_steps blockC10w = [] ∧
    (create_json_obj "t".toList blockC10w "f.md".toList 101).solutionSteps = [] :=
  C10_bash_amended blockC10w "t".toList "f.md".toList 101 (by decide)

end KubePrep
